import Mathlib

/-!
Verification development for the IndexedDb remote-document cache and its
change buffer (`indexeddb_remote_document_cache.ts`), the local persistence
core of a client-side document database SDK.

The TypeScript source is embedded shallowly:

* Document keys and resource paths are ordered lists of path segments;
  segments are `String`s compared by their character sequences, which is the
  lexicographic code-point order IndexedDB and the source's
  `primitiveComparator` use.
* `SnapshotVersion` is a `Nat` with `0` as the distinguished minimum
  (`SnapshotVersion.min()`); the order-preserving encoding
  `toDbTimestampKey` / `fromDbTimestampKey` is the identity on this model.
* The object store is an association list from document keys to serialized
  `DbRemoteDocument` records; IndexedDB's ordered iteration (by primary key,
  by the `readTime` index, and by the `(collection, readTime)` index) is
  realized by sorting the entries with the corresponding comparator.
* Asynchronous `PersistencePromise` plumbing is dropped: within one
  transaction the operations run sequentially, so each method becomes a pure
  function of the store.  `debugAssert` failures become `Except` errors.

Definitions that embed code outside the excerpt (the `MutableDocument`
model, the local serializer, `dbDocumentSize`, and the abstract
`RemoteDocumentChangeBuffer` base class) are marked `Modelled from the
spec:` in their doc comments.
-/

/-! ## Path segments and comparators -/

/-- Ordering on characters by code point, as used for JS string comparison. -/
def charCompare (a b : Char) : Ordering :=
  if a.toNat < b.toNat then .lt else if b.toNat < a.toNat then .gt else .eq

/-- Lexicographic lifting of an element comparator to lists, with a strict
prefix ordered first; this is how both IndexedDB array keys and the
source's path comparators are ordered. -/
def lexCompare {α : Type} (cmp : α → α → Ordering) :
    List α → List α → Ordering
  | [], [] => .eq
  | [], _ :: _ => .lt
  | _ :: _, [] => .gt
  | a :: as, b :: bs =>
    match cmp a b with
    | .eq => lexCompare cmp as bs
    | o => o

/-- Lexicographic ordering on character lists (JS string comparison). -/
def charsCompare : List Char → List Char → Ordering := lexCompare charCompare

/-- Comparison of two path segments (JS `<` / `===` on strings, as in
`primitiveComparator`). -/
def segCompare (a b : String) : Ordering := charsCompare a.data b.data

/-- A resource path: an ordered sequence of path segments
(`ResourcePath.toArray()` in the source). -/
abbrev ResourcePath := List String

/-- A document key, stored in IndexedDB as the array of its path segments
(`dbKey(docKey) = docKey.path.toArray()`). -/
abbrev DocumentKey := List String

/-- Segment-wise lexicographic comparison of paths with the shorter path
first, which is both IndexedDB's array-key comparison and
`DocumentKey.comparator`. -/
def pathCompare : List String → List String → Ordering := lexCompare segCompare

/-- `ResourcePath.canonicalString()` joins the segments with `/`.  The
canonical string is modelled by its character list so that string
concatenation stays structural. -/
def canonicalString (p : ResourcePath) : List Char :=
  List.intercalate ['/'] (p.map String.data)

/-- `SnapshotVersion`, a logical version token; `0` is
`SnapshotVersion.min()`. -/
abbrev SnapshotVersion := Nat

/-- `DbTimestampKey`, the on-disk encoding of a snapshot version.  The real
encoding `[seconds, nanos]` is an order-preserving bijection, modelled by
the identity. -/
abbrev DbTimestampKey := Nat

/-- `toDbTimestampKey`: encodes a snapshot version as an IndexedDB key. -/
def toDbTimestampKey (v : SnapshotVersion) : DbTimestampKey := v

/-- `fromDbTimestampKey`: decodes an IndexedDB timestamp key. -/
def fromDbTimestampKey (k : DbTimestampKey) : SnapshotVersion := k

/-! ## The document model

Modelled from the spec: `MutableDocument` (`model/document.ts`, not part of
the excerpt) is "a single record type with an explicit enumerated state
field": `key`, `version`, `data`, a `documentType` tag among
invalid / found-document / no-document / unknown-document, the
local/committed mutation flags, and a `readTime` defaulting to the minimum
sentinel.  The field tree itself is irrelevant to the cache claims and is
modelled as an opaque payload. -/

/-- The tagged document state: `invalid` means "never observed". -/
inductive DocumentType
  | invalid
  | foundDocument
  | noDocument
  | unknownDocument
deriving DecidableEq, Repr

/-- Mutation bookkeeping: synced, committed mutations, or local mutations. -/
inductive DocumentState
  | synced
  | hasCommittedMutations
  | hasLocalMutations
deriving DecidableEq, Repr

/-- The document field tree, opaque to the cache layer. -/
abbrev ObjectValue := Nat

/-- Modelled from the spec: the `MutableDocument` record. -/
structure MutableDocument where
  key : DocumentKey
  documentType : DocumentType
  version : SnapshotVersion
  readTime : SnapshotVersion
  data : ObjectValue
  documentState : DocumentState
deriving DecidableEq, Repr

namespace MutableDocument

/-- A document is valid iff it has been observed (found / no / unknown). -/
def isValidDocument (d : MutableDocument) : Bool :=
  d.documentType ≠ DocumentType.invalid

/-- Whether the document is known to exist. -/
def isFoundDocument (d : MutableDocument) : Bool :=
  d.documentType = DocumentType.foundDocument

/-- Whether the document is known not to exist. -/
def isNoDocument (d : MutableDocument) : Bool :=
  d.documentType = DocumentType.noDocument

/-- Whether the document changed at a known version with unknown content. -/
def isUnknownDocument (d : MutableDocument) : Bool :=
  d.documentType = DocumentType.unknownDocument

/-- `MutableDocument.newInvalidDocument(documentKey)`: the explicitly
invalid document for a key, at the minimum version with empty data. -/
def newInvalidDocument (documentKey : DocumentKey) : MutableDocument :=
  { key := documentKey
    documentType := .invalid
    version := 0
    readTime := 0
    data := 0
    documentState := .synced }

/-- `convertToNoDocument(version)`: turns the record into a no-document at
the given version with empty data, leaving `readTime` untouched. -/
def convertToNoDocument (d : MutableDocument) (version : SnapshotVersion) :
    MutableDocument :=
  { d with
    documentType := .noDocument
    version := version
    data := 0
    documentState := .synced }

/-- `setReadTime(readTime)`. -/
def setReadTime (d : MutableDocument) (readTime : SnapshotVersion) :
    MutableDocument :=
  { d with readTime := readTime }

/-- `hasCommittedMutations` flag. -/
def hasCommittedMutations (d : MutableDocument) : Bool :=
  d.documentState = DocumentState.hasCommittedMutations

end MutableDocument

/-- A sentinel removal: a no-document at the minimum version, kept in the
store only for change enumeration (`isSentinelRemoval` in
`maybeDecodeDocument`). -/
def isSentinel (d : MutableDocument) : Bool :=
  d.isNoDocument && d.version = 0

/-! ## The serialized record and the serializer

Modelled from the spec: `DbRemoteDocument` (`indexeddb_schema.ts`) and the
local serializer (`local_serializer.ts`) are not part of the excerpt.  A
record stores one of a document / no-document / unknown-document payload
together with `hasCommittedMutations`, the `readTime` index key and the
`parentPath` used by the `(collection, readTime)` index. -/

/-- Which payload variant a `DbRemoteDocument` record carries. -/
inductive DbDocType
  | document
  | noDocument
  | unknownDocument
deriving DecidableEq, Repr

/-- Modelled from the spec: the on-disk record of one cached document. -/
structure DbRemoteDocument where
  docType : DbDocType
  path : DocumentKey
  version : SnapshotVersion
  data : ObjectValue
  hasCommittedMutations : Bool
  readTime : DbTimestampKey
  parentPath : ResourcePath
deriving DecidableEq, Repr

/-- Modelled from the spec: `toDbRemoteDocument(serializer, document)`
serializes a valid document, recording its read time and parent path for
the secondary indexes.  (The source fails on an invalid document; this
total model maps it to the no-document shape, a case no embedded code path
reaches.) -/
def toDbRemoteDocument (document : MutableDocument) : DbRemoteDocument :=
  { docType :=
      if document.isFoundDocument then .document
      else if document.isUnknownDocument then .unknownDocument
      else .noDocument
    path := document.key
    version := document.version
    data := document.data
    hasCommittedMutations := document.hasCommittedMutations
    readTime := toDbTimestampKey document.readTime
    parentPath := document.key.dropLast }

/-- Modelled from the spec: `fromDbRemoteDocument(serializer, dbDoc)`
decodes a record back into a mutable document, including its read time. -/
def fromDbRemoteDocument (e : DbRemoteDocument) : MutableDocument :=
  { key := e.path
    documentType :=
      match e.docType with
      | .document => .foundDocument
      | .noDocument => .noDocument
      | .unknownDocument => .unknownDocument
    version := e.version
    readTime := fromDbTimestampKey e.readTime
    data := e.data
    documentState :=
      if e.hasCommittedMutations then .hasCommittedMutations else .synced }

/-- Modelled from the spec: `dbDocumentSize(doc)`
(`indexeddb_mutation_batch_impl.ts`) estimates the byte size of the
serialized payload (`JSON.stringify(value).length` in the source); the
estimate is abstracted as a positive structural size. -/
def dbDocumentSize (e : DbRemoteDocument) : Nat :=
  1 + e.data + e.version + e.path.length

/-- `dbDocumentSize` on a nullable record: `0` when the key is absent. -/
def dbDocumentSizeOpt : Option DbRemoteDocument → Nat
  | none => 0
  | some e => dbDocumentSize e

/-! ## The object store -/

/-- One row of the `remoteDocuments` object store. -/
abbrev StoreEntry := DocumentKey × DbRemoteDocument

/-- The `remoteDocuments` object store: an association list from document
keys to serialized records. -/
abbrev Store := List StoreEntry

/-- `SimpleDbStore.get(key)`. -/
def storeGet : Store → DocumentKey → Option DbRemoteDocument
  | [], _ => none
  | (k', v) :: rest, k => if k' = k then some v else storeGet rest k

/-- `SimpleDbStore.put(key, value)`: replaces the row or appends it. -/
def storePut : Store → DocumentKey → DbRemoteDocument → Store
  | [], k, v => [(k, v)]
  | (k', v') :: rest, k, v =>
    if k' = k then (k, v) :: rest else (k', v') :: storePut rest k v

/-- `SimpleDbStore.delete(key)`. -/
def storeDelete : Store → DocumentKey → Store
  | [], _ => []
  | (k', v') :: rest, k =>
    if k' = k then rest else (k', v') :: storeDelete rest k

/-- Total byte size of all rows of the store, the quantity the
`DbRemoteDocumentGlobal.byteSize` metadata is meant to track. -/
def storeSizeSum (s : Store) : Int :=
  (s.map (fun e => (dbDocumentSize e.2 : Int))).sum

/-! ## Iteration orders of the store and its indexes -/

/-- Boolean order on primary keys. -/
def primaryLe (x y : StoreEntry) : Bool := pathCompare x.1 y.1 ≠ .gt

/-- Order of the `readTime` index: by read time, ties broken by primary
key (IndexedDB orders equal index keys by primary key). -/
def readTimeIdxLe (x y : StoreEntry) : Bool :=
  if x.2.readTime < y.2.readTime then true
  else if y.2.readTime < x.2.readTime then false
  else primaryLe x y

/-- The `(collection, readTime)` index key of a row. -/
def collectionReadTimeKey (e : StoreEntry) : ResourcePath × DbTimestampKey :=
  (e.2.parentPath, e.2.readTime)

/-- IndexedDB comparison of `(collection, readTime)` index keys. -/
def idxKeyCompare (a b : ResourcePath × DbTimestampKey) : Ordering :=
  match pathCompare a.1 b.1 with
  | .eq => if a.2 < b.2 then .lt else if b.2 < a.2 then .gt else .eq
  | o => o

/-- Order of the `collectionReadTime` index: by `(parentPath, readTime)`,
ties broken by primary key. -/
def collectionIdxLe (x y : StoreEntry) : Bool :=
  match idxKeyCompare (collectionReadTimeKey x) (collectionReadTimeKey y) with
  | .lt => true
  | .gt => false
  | .eq => primaryLe x y

/-- Insertion into a list sorted by a boolean order. -/
def orderedInsert {α : Type} (le : α → α → Bool) (a : α) :
    List α → List α
  | [] => [a]
  | b :: l => if le a b then a :: b :: l else b :: orderedInsert le a l

/-- Structural insertion sort realizing IndexedDB's ordered iteration. -/
def sortEntries {α : Type} (le : α → α → Bool) : List α → List α
  | [] => []
  | a :: l => orderedInsert le a (sortEntries le l)

/-- The store's rows in primary-key order (plain `iterate`). -/
def entriesByKey (s : Store) : List StoreEntry := sortEntries primaryLe s

/-- The store's rows in `readTime`-index order. -/
def entriesByReadTime (s : Store) : List StoreEntry :=
  sortEntries readTimeIdxLe s

/-- The store's rows in `collectionReadTime`-index order. -/
def entriesByCollectionReadTime (s : Store) : List StoreEntry :=
  sortEntries collectionIdxLe s

/-! ## Result maps -/

/-- A `MutableDocumentMap` under construction: insertion-ordered
association list with unique keys. -/
abbrev DocMap := List (DocumentKey × MutableDocument)

/-- `mutableDocumentMap()`. -/
def mapEmpty : DocMap := []

/-- `map.insert(key, doc)`: replaces the binding or appends it. -/
def mapInsert : DocMap → DocumentKey → MutableDocument → DocMap
  | [], k, d => [(k, d)]
  | (k', d') :: rest, k, d =>
    if k' = k then (k, d) :: rest else (k', d') :: mapInsert rest k d

/-- `map.get(key)`. -/
def mapGet : DocMap → DocumentKey → Option MutableDocument
  | [], _ => none
  | (k', d') :: rest, k => if k' = k then some d' else mapGet rest k

/-! ## `IndexedDbRemoteDocumentCacheImpl` (from the excerpt) -/

/-- `maybeDecodeDocument(documentKey, dbRemoteDoc)`: decodes a nullable
record, masking sentinel removals (and absent rows) as the explicitly
invalid document for the key. -/
def maybeDecodeDocument (documentKey : DocumentKey)
    (dbRemoteDoc : Option DbRemoteDocument) : MutableDocument :=
  match dbRemoteDoc with
  | some e =>
    let doc := fromDbRemoteDocument e
    let isSentinelRemoval := doc.isNoDocument && doc.version = 0
    if !isSentinelRemoval then doc
    else MutableDocument.newInvalidDocument documentKey
  | none => MutableDocument.newInvalidDocument documentKey

/-- `getEntry(transaction, documentKey)`. -/
def getEntry (s : Store) (documentKey : DocumentKey) : MutableDocument :=
  maybeDecodeDocument documentKey (storeGet s documentKey)

/-- `getSizedEntry(transaction, documentKey)`: the decoded document together
with the size of the raw record (`0` for an absent key). -/
def getSizedEntry (s : Store) (documentKey : DocumentKey) :
    MutableDocument × Nat :=
  (maybeDecodeDocument documentKey (storeGet s documentKey),
   dbDocumentSizeOpt (storeGet s documentKey))

/-- The merge walk of `forEachDbEntry`: advance through the rows (sorted by
primary key) and the requested keys (a sorted `DocumentKeySet`) together,
calling back with the row for each matching key and with `null` for each
requested key that has no row; `control.skip` / `control.done` make the
callback see exactly this sequence. -/
def forEachDbEntryMerge :
    List StoreEntry → List DocumentKey → List (DocumentKey × Option DbRemoteDocument)
  | _, [] => []
  | [], k :: ks => (k, none) :: forEachDbEntryMerge [] ks
  | (ek, ev) :: es, k :: ks =>
    match pathCompare ek k with
    | .lt => forEachDbEntryMerge es (k :: ks)
    | .eq => (k, some ev) :: forEachDbEntryMerge es ks
    | .gt => (k, none) :: forEachDbEntryMerge ((ek, ev) :: es) ks
termination_by es ks => es.length + ks.length

/-- `getEntries(transaction, documentKeys)`: one decoded document per
requested key, the invalid document for keys not in the store. -/
def getEntries (s : Store) (documentKeys : List DocumentKey) : DocMap :=
  (forEachDbEntryMerge (entriesByKey s) documentKeys).foldl
    (fun results kv => mapInsert results kv.1 (maybeDecodeDocument kv.1 kv.2))
    mapEmpty

/-- `getSizedEntries(transaction, documentKeys)`: also records the raw
record size per key (zero if the document does not exist). -/
def getSizedEntries (s : Store) (documentKeys : List DocumentKey) :
    DocMap × List (DocumentKey × Nat) :=
  (forEachDbEntryMerge (entriesByKey s) documentKeys).foldl
    (fun acc kv =>
      (mapInsert acc.1 kv.1 (maybeDecodeDocument kv.1 kv.2),
       acc.2 ++ [(kv.1, dbDocumentSizeOpt kv.2)]))
    (mapEmpty, [])

/-- The `iterate` callback of `getAll`, run over the rows the chosen range
and index deliver, in order: rows whose key is not exactly one segment
longer than the collection are skipped; otherwise the decoded document is
inserted when the collection path is a prefix of its key, and the cursor
stops (`control.done()`) at the first decoded document that leaves the
collection prefix. -/
def getAllLoop (collection : ResourcePath) (immediateChildrenPathLength : Nat) :
    List StoreEntry → DocMap → DocMap
  | [], results => results
  | (key, dbRemoteDoc) :: rest, results =>
    if key.length ≠ immediateChildrenPathLength then
      getAllLoop collection immediateChildrenPathLength rest results
    else
      let document := maybeDecodeDocument key (some dbRemoteDoc)
      if collection.isPrefixOf document.key then
        getAllLoop collection immediateChildrenPathLength rest
          (mapInsert results document.key document)
      else
        results

/-- The rows `getAll` iterates over: for the minimum `sinceReadTime`, a
prefix scan of the primary index from the collection key (closed lower
bound); otherwise the `collectionReadTime` index from the open lower bound
`[collection, readTime]`. -/
def getAllRange (s : Store) (collection : ResourcePath)
    (sinceReadTime : SnapshotVersion) : List StoreEntry :=
  if sinceReadTime = 0 then
    (entriesByKey s).filter (fun e => pathCompare collection e.1 ≠ .gt)
  else
    (entriesByCollectionReadTime s).filter (fun e =>
      idxKeyCompare (collection, toDbTimestampKey sinceReadTime)
        (collectionReadTimeKey e) = .lt)

/-- `getAll(transaction, collection, sinceReadTime)`. -/
def getAll (s : Store) (collection : ResourcePath)
    (sinceReadTime : SnapshotVersion) : DocMap :=
  getAllLoop collection (collection.length + 1)
    (getAllRange s collection sinceReadTime) mapEmpty

/-- The rows `remoteDocumentCacheGetNewDocumentChanges` iterates over: the
`readTime` index above the open lower bound `toDbTimestampKey(since)`. -/
def newChangesEntries (s : Store) (sinceReadTime : SnapshotVersion) :
    List StoreEntry :=
  (entriesByReadTime s).filter
    (fun e => decide (toDbTimestampKey sinceReadTime < e.2.readTime))

/-- `remoteDocumentCacheGetNewDocumentChanges(cache, transaction,
sinceReadTime)`: decodes every visited row directly (keeping sentinel
removals), accumulating the map of changed documents and the read time of
the last row visited. -/
def remoteDocumentCacheGetNewDocumentChanges (s : Store)
    (sinceReadTime : SnapshotVersion) : DocMap × SnapshotVersion :=
  let folded :=
    (newChangesEntries s sinceReadTime).foldl
      (fun (acc : DocMap × DbTimestampKey) e =>
        (mapInsert acc.1 (fromDbRemoteDocument e.2).key (fromDbRemoteDocument e.2),
         e.2.readTime))
      (mapEmpty, toDbTimestampKey sinceReadTime)
  (folded.1, fromDbTimestampKey folded.2)

/-! ## The change buffer -/

/-- The two `debugAssert` failures `applyChanges` can raise: staging a key
that was never read through the buffer (`Cannot modify a document that
was not read`), and committing a valid document whose read time is still
the minimum sentinel (`Cannot add a document with a read time of zero`). -/
inductive ApplyError
  | documentNotRead
  | zeroReadTime
deriving DecidableEq, Repr

/-- Lookup in an association list keyed by document keys (`ObjectMap.get`,
which compares keys by canonical string, i.e. by equality of segment
lists). -/
def assocGet {β : Type} : List (DocumentKey × β) → DocumentKey → Option β
  | [], _ => none
  | (k', v) :: rest, k => if k' = k then some v else assocGet rest k

/-- Update in an association list keyed by document keys (`ObjectMap.set`):
replaces the binding or appends it. -/
def assocSet {β : Type} : List (DocumentKey × β) → DocumentKey → β →
    List (DocumentKey × β)
  | [], k, v => [(k, v)]
  | (k', v') :: rest, k, v =>
    if k' = k then (k, v) :: rest else (k', v') :: assocSet rest k v

/-- The state of an `IndexedDbRemoteDocumentChangeBuffer`: the staged
changes (`protected changes`, an `ObjectMap` in insertion order), the
per-document sizes recorded on first read (`protected documentSizes`), and
the `trackRemovals` mode chosen at `newChangeBuffer`. -/
structure ChangeBuffer where
  changes : List (DocumentKey × MutableDocument)
  documentSizes : List (DocumentKey × Nat)
  trackRemovals : Bool
deriving DecidableEq, Repr

/-- `newChangeBuffer(options)`: a fresh buffer
(`IndexedDbRemoteDocumentCacheImpl.newChangeBuffer`). -/
def newChangeBuffer (trackRemovals : Bool) : ChangeBuffer :=
  { changes := [], documentSizes := [], trackRemovals := trackRemovals }

/-- Insertion into the `SortedSet` of touched collection parents, whose
comparator is `primitiveComparator` on the canonical strings: an element
with an equal canonical string is replaced, otherwise the path is inserted
at its sorted position. -/
def sortedSetAdd (parents : List ResourcePath) (p : ResourcePath) :
    List ResourcePath :=
  match parents with
  | [] => [p]
  | q :: rest =>
    match charsCompare (canonicalString p) (canonicalString q) with
    | .lt => p :: q :: rest
    | .eq => p :: rest
    | .gt => q :: sortedSetAdd rest p

/-- The cache-wide state the buffer commits into: the `remoteDocuments`
store plus the `DbRemoteDocumentGlobal.byteSize` metadata counter. -/
structure CacheState where
  store : Store
  byteSize : Int
deriving DecidableEq, Repr

/-- The `changes.forEach` loop of `applyChanges`, processing the staged
keys in iteration order while accumulating the store writes, the size
delta, and the deduplicated set of touched collection parents.  Each key's
recorded prior size is asserted to exist; a staged valid document is
asserted to have a non-minimum read time, serialized and put (its parent
added to the set), and a staged invalid document subtracts its prior size
and is either overwritten by a sentinel delete (`trackRemovals`) or
deleted. -/
def applyChangesLoop (trackRemovals : Bool)
    (documentSizes : List (DocumentKey × Nat)) :
    List (DocumentKey × MutableDocument) →
    Store × Int × List ResourcePath →
    Except ApplyError (Store × Int × List ResourcePath)
  | [], acc => .ok acc
  | (key, documentChange) :: rest, (store, sizeDelta, collectionParents) =>
    match assocGet documentSizes key with
    | none => .error .documentNotRead
    | some previousSize =>
      if documentChange.isValidDocument then
        if documentChange.readTime = 0 then .error .zeroReadTime
        else
          let doc := toDbRemoteDocument documentChange
          let size := dbDocumentSize doc
          applyChangesLoop trackRemovals documentSizes rest
            (storePut store key doc,
             sizeDelta + (size : Int) - (previousSize : Int),
             sortedSetAdd collectionParents key.dropLast)
      else
        if trackRemovals then
          let deletedDoc :=
            toDbRemoteDocument (documentChange.convertToNoDocument 0)
          applyChangesLoop trackRemovals documentSizes rest
            (storePut store key deletedDoc,
             sizeDelta - (previousSize : Int),
             collectionParents)
        else
          applyChangesLoop trackRemovals documentSizes rest
            (storeDelete store key,
             sizeDelta - (previousSize : Int),
             collectionParents)

/-- `applyChanges(transaction)`: runs the staged changes against the cache,
then notifies the index manager once per touched parent and flushes the
accumulated size delta to the metadata counter (`updateMetadata`).  The
result carries the new cache state and the list of parents passed to
`IndexManager.addToCollectionParentIndex`, in notification order. -/
def applyChanges (b : ChangeBuffer) (c : CacheState) :
    Except ApplyError (CacheState × List ResourcePath) :=
  match applyChangesLoop b.trackRemovals b.documentSizes b.changes
      (c.store, 0, []) with
  | .error e => .error e
  | .ok (store, sizeDelta, collectionParents) =>
    .ok ({ store := store, byteSize := c.byteSize + sizeDelta },
         collectionParents)

/-! ## The abstract buffer interface

Modelled from the spec: the abstract `RemoteDocumentChangeBuffer` base
class is not part of the excerpt.  Per the spec, `getEntry(key)` /
`getEntries(keys)` "first check the buffer's in-progress change set; on
miss, delegate to the cache and record the pre-existing size", the record
happening once per key; `addEntry(document)` stages the document under its
key; `removeEntry(key, readTime)` stages the explicitly invalid document
carrying the removal's read time.  The delegation target in the
IndexedDb subclass is `getFromCache` / `getAllFromCache`, which record
`getSizedEntry` sizes in `documentSizes`. -/

/-- `getFromCache(transaction, documentKey)` as a state update: records the
size of what was loaded. -/
def recordReadSize (s : Store) (b : ChangeBuffer) (k : DocumentKey) :
    ChangeBuffer :=
  { b with
    documentSizes := assocSet b.documentSizes k (getSizedEntry s k).2 }

/-- A buffered `getEntry`: served from the change set when staged,
otherwise delegated to the cache, recording the prior size. -/
def bufferRead (s : Store) (b : ChangeBuffer) (k : DocumentKey) :
    ChangeBuffer :=
  if (assocGet b.changes k).isSome then b else recordReadSize s b k

/-- One operation against a change buffer before it is applied. -/
inductive BufferOp
  | read (k : DocumentKey)
  | readAll (ks : List DocumentKey)
  | addEntry (d : MutableDocument)
  | removeEntry (k : DocumentKey) (readTime : SnapshotVersion)

/-- The state update of one buffer operation (the store is fixed during the
buffer's lifetime: all writes are deferred to `applyChanges`). -/
def bufferStep (s : Store) (b : ChangeBuffer) : BufferOp → ChangeBuffer
  | .read k => bufferRead s b k
  | .readAll ks => ks.foldl (bufferRead s) b
  | .addEntry d => { b with changes := assocSet b.changes d.key d }
  | .removeEntry k readTime =>
    { b with
      changes :=
        assocSet b.changes k
          ((MutableDocument.newInvalidDocument k).setReadTime readTime) }

/-- One change-buffer lifetime: a buffer is created, a sequence of reads
and staged writes runs against it, and `applyChanges` commits it. -/
def runSession (c : CacheState) (trackRemovals : Bool) (ops : List BufferOp) :
    Except ApplyError (CacheState × List ResourcePath) :=
  applyChanges (ops.foldl (bufferStep c.store) (newChangeBuffer trackRemovals))
    c

/-- Cache states reachable from the initial state (empty store, zero byte
size) by committed change-buffer sessions with track-removals disabled. -/
inductive ReachableNoTrack : CacheState → Prop
  | init : ReachableNoTrack { store := [], byteSize := 0 }
  | step {c c' : CacheState} {ops : List BufferOp} {ps : List ResourcePath} :
      ReachableNoTrack c → runSession c false ops = .ok (c', ps) →
      ReachableNoTrack c'

/-! ## Comparator laws -/

/-- The laws of a strict three-way comparator. -/
structure CmpLaws {α : Type} (cmp : α → α → Ordering) : Prop where
  eq_iff : ∀ a b, cmp a b = .eq ↔ a = b
  swap : ∀ a b, (cmp a b).swap = cmp b a
  lt_trans : ∀ a b c, cmp a b = .lt → cmp b c = .lt → cmp a c = .lt

theorem lexCompare_cons {α : Type} (cmp : α → α → Ordering) (x y : α)
    (xs ys : List α) :
    lexCompare cmp (x :: xs) (y :: ys) =
      match cmp x y with
      | .eq => lexCompare cmp xs ys
      | o => o := rfl

theorem lexCompare_cons_lt {α : Type} {cmp : α → α → Ordering} {x y : α}
    {xs ys : List α} :
    lexCompare cmp (x :: xs) (y :: ys) = .lt ↔
      cmp x y = .lt ∨ (cmp x y = .eq ∧ lexCompare cmp xs ys = .lt) := by
  rw [lexCompare_cons]
  rcases h : cmp x y <;> simp

theorem lexCompare_cons_eq {α : Type} {cmp : α → α → Ordering} {x y : α}
    {xs ys : List α} :
    lexCompare cmp (x :: xs) (y :: ys) = .eq ↔
      cmp x y = .eq ∧ lexCompare cmp xs ys = .eq := by
  rw [lexCompare_cons]
  rcases h : cmp x y <;> simp

theorem lexCompare_cons_gt {α : Type} {cmp : α → α → Ordering} {x y : α}
    {xs ys : List α} :
    lexCompare cmp (x :: xs) (y :: ys) = .gt ↔
      cmp x y = .gt ∨ (cmp x y = .eq ∧ lexCompare cmp xs ys = .gt) := by
  rw [lexCompare_cons]
  rcases h : cmp x y <;> simp

theorem charCompare_laws : CmpLaws charCompare := by
  constructor
  · intro a b
    unfold charCompare
    constructor
    · intro h
      split at h
      · simp at h
      · split at h
        · simp at h
        · have hv : a.toNat = b.toNat := by omega
          exact Char.eq_of_val_eq (UInt32.eq_of_val_eq (Fin.eq_of_val_eq hv))
    · intro h; subst h; simp
  · intro a b
    unfold charCompare
    rcases Nat.lt_trichotomy a.toNat b.toNat with h | h | h
    · simp [h, show ¬ b.toNat < a.toNat from by omega, Ordering.swap]
    · simp [h, lt_irrefl, Ordering.swap]
    · simp [h, show ¬ a.toNat < b.toNat from by omega, Ordering.swap]
  · intro a b c hab hbc
    unfold charCompare at *
    split at hab
    · split at hbc
      · rw [if_pos (by omega)]
      · split at hbc <;> simp_all
    · split at hab <;> simp_all

theorem lexCompare_laws {α : Type} {cmp : α → α → Ordering} (h : CmpLaws cmp) :
    CmpLaws (lexCompare cmp) := by
  constructor
  · intro a
    induction a with
    | nil => intro b; cases b <;> simp [lexCompare]
    | cons x xs ih =>
      intro b
      cases b with
      | nil => simp [lexCompare]
      | cons y ys =>
        rw [lexCompare_cons_eq, ih]
        constructor
        · rintro ⟨h1, h2⟩
          rw [(h.eq_iff x y).1 h1, h2]
        · intro hh
          rw [List.cons.injEq] at hh
          exact ⟨(h.eq_iff x y).2 hh.1, hh.2⟩
  · intro a
    induction a with
    | nil => intro b; cases b <;> rfl
    | cons x xs ih =>
      intro b
      cases b with
      | nil => rfl
      | cons y ys =>
        rw [lexCompare_cons, lexCompare_cons, ← h.swap x y]
        rcases hc : cmp x y with _ | _ | _
        · rfl
        · exact ih ys
        · rfl
  · intro a
    induction a with
    | nil =>
      intro b c hab hbc
      cases b with
      | nil => exact hbc
      | cons y ys =>
        cases c with
        | nil => simp [lexCompare] at hbc
        | cons z zs => rfl
    | cons x xs ih =>
      intro b c hab hbc
      cases b with
      | nil => simp [lexCompare] at hab
      | cons y ys =>
        cases c with
        | nil => simp [lexCompare] at hbc
        | cons z zs =>
          rw [lexCompare_cons_lt] at hab hbc ⊢
          rcases hab with hxy | ⟨hxy, hxsys⟩
          · rcases hbc with hyz | ⟨hyz, hyszs⟩
            · exact Or.inl (h.lt_trans x y z hxy hyz)
            · rw [← (h.eq_iff y z).1 hyz]
              exact Or.inl hxy
          · rcases hbc with hyz | ⟨hyz, hyszs⟩
            · rw [(h.eq_iff x y).1 hxy]
              exact Or.inl hyz
            · exact Or.inr ⟨(h.eq_iff x z).2
                (by rw [(h.eq_iff x y).1 hxy, (h.eq_iff y z).1 hyz]),
                ih ys zs hxsys hyszs⟩

theorem charsCompare_laws : CmpLaws charsCompare := lexCompare_laws charCompare_laws

theorem segCompare_laws : CmpLaws segCompare := by
  constructor
  · intro a b
    unfold segCompare
    rw [charsCompare_laws.eq_iff]
    constructor
    · intro hh
      cases a; cases b; simp_all
    · intro hh; rw [hh]
  · intro a b; exact charsCompare_laws.swap a.data b.data
  · intro a b c; exact charsCompare_laws.lt_trans a.data b.data c.data

theorem pathCompare_laws : CmpLaws pathCompare := lexCompare_laws segCompare_laws

/-! ## Insertion sort lemmas -/

theorem mem_orderedInsert {α : Type} (le : α → α → Bool) (a x : α)
    (l : List α) : x ∈ orderedInsert le a l ↔ x = a ∨ x ∈ l := by
  induction l with
  | nil => simp [orderedInsert]
  | cons b l2 ih =>
    simp only [orderedInsert]
    by_cases h : le a b = true
    · rw [if_pos h]
      simp [List.mem_cons]
    · rw [if_neg h]
      simp only [List.mem_cons, ih]
      constructor
      · rintro (h2 | h2 | h2)
        · exact Or.inr (Or.inl h2)
        · exact Or.inl h2
        · exact Or.inr (Or.inr h2)
      · rintro (h2 | h2 | h2)
        · exact Or.inr (Or.inl h2)
        · exact Or.inl h2
        · exact Or.inr (Or.inr h2)

theorem orderedInsert_perm {α : Type} (le : α → α → Bool) (a : α)
    (l : List α) : (orderedInsert le a l).Perm (a :: l) := by
  induction l with
  | nil => simp [orderedInsert]
  | cons b l2 ih =>
    simp only [orderedInsert]
    by_cases h : le a b = true
    · rw [if_pos h]
    · rw [if_neg h]
      exact (ih.cons b).trans (List.Perm.swap a b l2)

theorem sortEntries_perm {α : Type} (le : α → α → Bool) (l : List α) :
    (sortEntries le l).Perm l := by
  induction l with
  | nil => exact List.Perm.refl _
  | cons a l2 ih =>
    exact (orderedInsert_perm le a (sortEntries le l2)).trans (ih.cons a)

theorem mem_sortEntries {α : Type} (le : α → α → Bool) (x : α) (l : List α) :
    x ∈ sortEntries le l ↔ x ∈ l :=
  (sortEntries_perm le l).mem_iff

theorem orderedInsert_pairwise {α : Type} (le : α → α → Bool)
    (htrans : ∀ a b c, le a b = true → le b c = true → le a c = true)
    (htotal : ∀ a b, (le a b || le b a) = true) (a : α) (l : List α)
    (h : l.Pairwise (fun x y => le x y = true)) :
    (orderedInsert le a l).Pairwise (fun x y => le x y = true) := by
  induction l with
  | nil => simp [orderedInsert]
  | cons b l2 ih =>
    rw [List.pairwise_cons] at h
    simp only [orderedInsert]
    by_cases hab : le a b = true
    · rw [if_pos hab]
      rw [List.pairwise_cons]
      refine ⟨?_, List.pairwise_cons.2 h⟩
      intro x hx
      rcases List.mem_cons.1 hx with rfl | hx2
      · exact hab
      · exact htrans a b x hab (h.1 x hx2)
    · rw [if_neg hab]
      rw [List.pairwise_cons]
      refine ⟨?_, ih h.2⟩
      intro x hx
      rcases (mem_orderedInsert le a x l2).1 hx with h3 | hx2
      · rw [h3]
        have := htotal a b
        rw [show le a b = false from by simpa using hab] at this
        simpa using this
      · exact h.1 x hx2

theorem sortEntries_pairwise {α : Type} (le : α → α → Bool)
    (htrans : ∀ a b c, le a b = true → le b c = true → le a c = true)
    (htotal : ∀ a b, (le a b || le b a) = true) (l : List α) :
    (sortEntries le l).Pairwise (fun x y => le x y = true) := by
  induction l with
  | nil => simp [sortEntries]
  | cons a l2 ih =>
    exact orderedInsert_pairwise le htrans htotal a _ ih

/-! ## Association list and store lemmas -/

theorem assocGet_set_self {β : Type} (l : List (DocumentKey × β))
    (k : DocumentKey) (v : β) : assocGet (assocSet l k v) k = some v := by
  induction l with
  | nil => simp [assocSet, assocGet]
  | cons hd tl ih =>
    by_cases h : hd.1 = k
    · simp only [assocSet, if_pos h, assocGet]
      simp
    · simp only [assocSet, if_neg h, assocGet]
      exact ih

theorem assocGet_set_ne {β : Type} (l : List (DocumentKey × β))
    (k k' : DocumentKey) (v : β) (h : k' ≠ k) :
    assocGet (assocSet l k v) k' = assocGet l k' := by
  induction l with
  | nil =>
    simp only [assocSet, assocGet]
    rw [if_neg (fun hh => h hh.symm)]
  | cons hd tl ih =>
    by_cases hh : hd.1 = k
    · simp only [assocSet, if_pos hh, assocGet]
      rw [if_neg (fun h2 => h h2.symm), if_neg (fun h2 => h (hh ▸ h2).symm)]
    · simp only [assocSet, if_neg hh, assocGet]
      rw [ih]

theorem mapGet_insert_self (m : DocMap) (k : DocumentKey) (d : MutableDocument) :
    mapGet (mapInsert m k d) k = some d := by
  induction m with
  | nil => simp [mapInsert, mapGet]
  | cons hd tl ih =>
    by_cases h : hd.1 = k
    · simp only [mapInsert, if_pos h, mapGet]
      simp
    · simp only [mapInsert, if_neg h, mapGet]
      exact ih

theorem mapGet_insert_ne (m : DocMap) (k k' : DocumentKey) (d : MutableDocument)
    (h : k' ≠ k) : mapGet (mapInsert m k d) k' = mapGet m k' := by
  induction m with
  | nil =>
    simp only [mapInsert, mapGet]
    rw [if_neg (fun hh => h hh.symm)]
  | cons hd tl ih =>
    by_cases hh : hd.1 = k
    · simp only [mapInsert, if_pos hh, mapGet]
      rw [if_neg (fun h2 => h h2.symm), if_neg (fun h2 => h (hh ▸ h2).symm)]
    · simp only [mapInsert, if_neg hh, mapGet]
      rw [ih]

/-- Folding `mapInsert` over pairs leaves keys outside the list unchanged. -/
theorem mapGet_foldl_not_mem (L : List (DocumentKey × MutableDocument))
    (m : DocMap) (k : DocumentKey) (h : k ∉ L.map Prod.fst) :
    mapGet (L.foldl (fun acc kv => mapInsert acc kv.1 kv.2) m) k = mapGet m k := by
  induction L generalizing m with
  | nil => rfl
  | cons hd tl ih =>
    simp only [List.map_cons, List.mem_cons] at h
    push_neg at h
    simp only [List.foldl_cons]
    rw [ih _ h.2, mapGet_insert_ne _ _ _ _ h.1]

/-- With unique keys, folding `mapInsert` makes every listed pair
retrievable. -/
theorem mapGet_foldl_mem (L : List (DocumentKey × MutableDocument))
    (m : DocMap) (k : DocumentKey) (d : MutableDocument)
    (hmem : (k, d) ∈ L) (hnd : (L.map Prod.fst).Nodup) :
    mapGet (L.foldl (fun acc kv => mapInsert acc kv.1 kv.2) m) k = some d := by
  induction L generalizing m with
  | nil => simp at hmem
  | cons hd tl ih =>
    simp only [List.map_cons, List.nodup_cons] at hnd
    rcases List.mem_cons.1 hmem with h | h
    · subst h
      simp only [List.foldl_cons]
      rw [mapGet_foldl_not_mem _ _ _ hnd.1, mapGet_insert_self]
    · exact ih _ h hnd.2

/-- Whatever the fold returns was either inserted from the list or already
present. -/
theorem mapGet_foldl_inv (L : List (DocumentKey × MutableDocument))
    (m : DocMap) (k : DocumentKey) (d : MutableDocument)
    (h : mapGet (L.foldl (fun acc kv => mapInsert acc kv.1 kv.2) m) k = some d) :
    (k, d) ∈ L ∨ mapGet m k = some d := by
  induction L generalizing m with
  | nil => exact Or.inr h
  | cons hd tl ih =>
    simp only [List.foldl_cons] at h
    rcases ih _ h with hh | hh
    · exact Or.inl (List.mem_cons_of_mem _ hh)
    · by_cases hk : k = hd.1
      · subst hk
        rw [mapGet_insert_self] at hh
        cases hh
        exact Or.inl (List.mem_cons_self _ _)
      · rw [mapGet_insert_ne _ _ _ _ hk] at hh
        exact Or.inr hh

theorem storeGet_put_self (s : Store) (k : DocumentKey) (v : DbRemoteDocument) :
    storeGet (storePut s k v) k = some v := by
  induction s with
  | nil => simp [storePut, storeGet]
  | cons hd tl ih =>
    by_cases h : hd.1 = k
    · simp only [storePut, if_pos h, storeGet]
      simp
    · simp only [storePut, if_neg h, storeGet]
      exact ih

theorem storeGet_put_ne (s : Store) (k k' : DocumentKey) (v : DbRemoteDocument)
    (h : k' ≠ k) : storeGet (storePut s k v) k' = storeGet s k' := by
  induction s with
  | nil =>
    simp only [storePut, storeGet]
    rw [if_neg (fun hh => h hh.symm)]
  | cons hd tl ih =>
    by_cases hh : hd.1 = k
    · simp only [storePut, if_pos hh, storeGet]
      rw [if_neg (fun h2 => h h2.symm), if_neg (fun h2 => h (hh ▸ h2).symm)]
    · simp only [storePut, if_neg hh, storeGet]
      rw [ih]

theorem storeGet_delete_ne (s : Store) (k k' : DocumentKey) (h : k' ≠ k) :
    storeGet (storeDelete s k) k' = storeGet s k' := by
  induction s with
  | nil => rfl
  | cons hd tl ih =>
    by_cases hh : hd.1 = k
    · simp only [storeDelete, if_pos hh, storeGet]
      rw [if_neg (fun h2 => h (hh ▸ h2).symm)]
    · simp only [storeDelete, if_neg hh, storeGet]
      rw [ih]

theorem storeGet_not_mem (s : Store) (k : DocumentKey)
    (h : k ∉ s.map Prod.fst) : storeGet s k = none := by
  induction s with
  | nil => rfl
  | cons hd tl ih =>
    simp only [List.map_cons, List.mem_cons] at h
    push_neg at h
    simp only [storeGet]
    rw [if_neg (fun h2 => h.1 h2.symm)]
    exact ih h.2

theorem storeGet_delete_self_nodup (s : Store) (k : DocumentKey)
    (hnd : (s.map Prod.fst).Nodup) : storeGet (storeDelete s k) k = none := by
  induction s with
  | nil => rfl
  | cons hd tl ih =>
    simp only [List.map_cons, List.nodup_cons] at hnd
    by_cases hh : hd.1 = k
    · simp only [storeDelete, if_pos hh]
      subst hh
      exact storeGet_not_mem _ _ hnd.1
    · simp only [storeDelete, if_neg hh, storeGet]
      exact ih hnd.2

/-- Size bookkeeping of `put`: the new record replaces whatever the key
held before. -/
theorem storeSizeSum_put (s : Store) (k : DocumentKey) (v : DbRemoteDocument) :
    storeSizeSum (storePut s k v) =
      storeSizeSum s + (dbDocumentSize v : Int)
        - (dbDocumentSizeOpt (storeGet s k) : Int) := by
  induction s with
  | nil => simp [storePut, storeSizeSum, storeGet, dbDocumentSizeOpt]
  | cons hd tl ih =>
    by_cases hh : hd.1 = k
    · simp only [storePut, if_pos hh, storeGet, if_pos hh]
      simp only [storeSizeSum, List.map_cons, List.sum_cons, dbDocumentSizeOpt]
      ring
    · simp only [storePut, if_neg hh, storeGet, if_neg hh]
      simp only [storeSizeSum, List.map_cons, List.sum_cons]
      rw [show (List.map (fun e => (dbDocumentSize e.2 : Int)) (storePut tl k v)).sum
            = storeSizeSum (storePut tl k v) from rfl, ih]
      simp only [storeSizeSum]
      ring

/-- Size bookkeeping of `delete`. -/
theorem storeSizeSum_delete (s : Store) (k : DocumentKey) :
    storeSizeSum (storeDelete s k) =
      storeSizeSum s - (dbDocumentSizeOpt (storeGet s k) : Int) := by
  induction s with
  | nil => simp [storeDelete, storeSizeSum, storeGet, dbDocumentSizeOpt]
  | cons hd tl ih =>
    by_cases hh : hd.1 = k
    · simp only [storeDelete, if_pos hh, storeGet, if_pos hh]
      simp only [storeSizeSum, List.map_cons, List.sum_cons, dbDocumentSizeOpt]
      ring
    · simp only [storeDelete, if_neg hh, storeGet, if_neg hh]
      simp only [storeSizeSum, List.map_cons, List.sum_cons]
      rw [show (List.map (fun e => (dbDocumentSize e.2 : Int)) (storeDelete tl k)).sum
            = storeSizeSum (storeDelete tl k) from rfl, ih]
      simp only [storeSizeSum]
      ring

/-! ## Decoding lemmas -/

/-- `maybeDecodeDocument` never produces the sentinel shape: a sentinel
record is masked to the invalid document, everything else decodes to a
non-sentinel. -/
theorem maybeDecodeDocument_not_sentinel (k : DocumentKey)
    (o : Option DbRemoteDocument) :
    isSentinel (maybeDecodeDocument k o) = false := by
  rcases o with _ | e
  · simp [maybeDecodeDocument, isSentinel, MutableDocument.newInvalidDocument,
      MutableDocument.isNoDocument]
  · simp only [maybeDecodeDocument]
    by_cases h : isSentinel (fromDbRemoteDocument e) = true
    · simp only [isSentinel] at h
      rw [show ((fromDbRemoteDocument e).isNoDocument &&
          decide ((fromDbRemoteDocument e).version = 0)) = true from h]
      simp [isSentinel, MutableDocument.newInvalidDocument,
        MutableDocument.isNoDocument]
    · simp only [isSentinel] at h ⊢
      rw [show ((fromDbRemoteDocument e).isNoDocument &&
          decide ((fromDbRemoteDocument e).version = 0)) = false from
        by simpa using h]
      simpa using h

/-- The decoded document always carries the looked-up key, provided the
record stores it (which `StoreWF` guarantees). -/
theorem maybeDecodeDocument_key (k : DocumentKey) (e : DbRemoteDocument)
    (h : e.path = k) : (maybeDecodeDocument k (some e)).key = k := by
  simp only [maybeDecodeDocument]
  by_cases hs : ((fromDbRemoteDocument e).isNoDocument &&
      decide ((fromDbRemoteDocument e).version = 0)) = true
  · rw [hs]
    simp [MutableDocument.newInvalidDocument]
  · rw [show ((fromDbRemoteDocument e).isNoDocument &&
        decide ((fromDbRemoteDocument e).version = 0)) = false from
      by simpa using hs]
    simp [fromDbRemoteDocument, h]

/-- Rewriting the `getEntries` fold as a fold of plain pairs. -/
theorem getEntries_foldl_eq (L : List (DocumentKey × Option DbRemoteDocument))
    (m : DocMap) :
    L.foldl (fun results kv =>
        mapInsert results kv.1 (maybeDecodeDocument kv.1 kv.2)) m =
      (L.map (fun kv => (kv.1, maybeDecodeDocument kv.1 kv.2))).foldl
        (fun acc kv => mapInsert acc kv.1 kv.2) m := by
  induction L generalizing m with
  | nil => rfl
  | cons hd tl ih =>
    simp only [List.foldl_cons, List.map_cons]
    exact ih _

/-- Values produced by the `getEntries` fold are `maybeDecodeDocument`
images. -/
theorem getEntries_values (s : Store) (ks : List DocumentKey)
    (k : DocumentKey) (d : MutableDocument)
    (h : mapGet (getEntries s ks) k = some d) :
    ∃ k2 o, d = maybeDecodeDocument k2 o := by
  unfold getEntries at h
  rw [getEntries_foldl_eq] at h
  rcases mapGet_foldl_inv _ _ _ _ h with hh | hh
  · rcases List.mem_map.1 hh with ⟨kv, _, hkv⟩
    rw [Prod.mk.injEq] at hkv
    exact ⟨kv.1, kv.2, hkv.2.symm⟩
  · simp [mapEmpty, mapGet] at hh

/-- Values accumulated by `getAllLoop` are `maybeDecodeDocument` images of
visited rows (or were already present). -/
theorem getAllLoop_values (c : ResourcePath) (n : Nat) (L : List StoreEntry)
    (m : DocMap) (k : DocumentKey) (d : MutableDocument)
    (h : mapGet (getAllLoop c n L m) k = some d) :
    (∃ e ∈ L, d = maybeDecodeDocument e.1 (some e.2)) ∨ mapGet m k = some d := by
  induction L generalizing m with
  | nil => exact Or.inr h
  | cons hd tl ih =>
    simp only [getAllLoop] at h
    by_cases hlen : hd.1.length ≠ n
    · rw [if_pos hlen] at h
      rcases ih _ h with ⟨e, he, hde⟩ | hh
      · exact Or.inl ⟨e, List.mem_cons_of_mem _ he, hde⟩
      · exact Or.inr hh
    · rw [if_neg hlen] at h
      by_cases hpre : c.isPrefixOf (maybeDecodeDocument hd.1 (some hd.2)).key
      · rw [if_pos hpre] at h
        rcases ih _ h with ⟨e, he, hde⟩ | hh
        · exact Or.inl ⟨e, List.mem_cons_of_mem _ he, hde⟩
        · by_cases hk : k = (maybeDecodeDocument hd.1 (some hd.2)).key
          · subst hk
            rw [mapGet_insert_self] at hh
            cases hh
            exact Or.inl ⟨hd, List.mem_cons_self _ _, rfl⟩
          · rw [mapGet_insert_ne _ _ _ _ hk] at hh
            exact Or.inr hh
      · rw [if_neg hpre] at h
        exact Or.inr h

/-- C3: `getEntry` never returns null or undefined: a missing key and a
sentinel tombstone both surface as the explicitly invalid document for the
key, and no normal read (`getEntry`, `getEntries`, `getAll`) ever returns
the sentinel shape (a no-document at the minimum version) — only the
change enumeration preserves it. -/
theorem C3_getEntry_never_null (s : Store) (k : DocumentKey) :
    (storeGet s k = none →
      getEntry s k = MutableDocument.newInvalidDocument k) ∧
    (∀ e, storeGet s k = some e → isSentinel (fromDbRemoteDocument e) = true →
      getEntry s k = MutableDocument.newInvalidDocument k) ∧
    isSentinel (getEntry s k) = false ∧
    (∀ ks k2 d, mapGet (getEntries s ks) k2 = some d →
      isSentinel d = false) ∧
    (∀ c t k2 d, mapGet (getAll s c t) k2 = some d →
      isSentinel d = false) := by
  refine ⟨?_, ?_, ?_, ?_, ?_⟩
  · intro h
    simp [getEntry, h, maybeDecodeDocument]
  · intro e he hs
    simp only [getEntry, he, maybeDecodeDocument]
    simp only [isSentinel] at hs
    rw [hs]
    simp
  · exact maybeDecodeDocument_not_sentinel _ _
  · intro ks k2 d h
    rcases getEntries_values s ks k2 d h with ⟨k3, o, rfl⟩
    exact maybeDecodeDocument_not_sentinel _ _
  · intro c t k2 d h
    rcases getAllLoop_values c (c.length + 1) _ _ _ _ h with ⟨e, _, rfl⟩ | hh
    · exact maybeDecodeDocument_not_sentinel _ _
    · simp [mapEmpty, mapGet] at hh

/-! ## Store-key bookkeeping lemmas -/

theorem storePut_keys_mem (s : Store) (k : DocumentKey) (v : DbRemoteDocument)
    (x : DocumentKey) (h : x ∈ (storePut s k v).map Prod.fst) :
    x = k ∨ x ∈ s.map Prod.fst := by
  induction s with
  | nil => simpa [storePut] using h
  | cons hd tl ih =>
    by_cases hh : hd.1 = k
    · simp only [storePut, if_pos hh, List.map_cons, List.mem_cons] at h
      rcases h with h | h
      · exact Or.inl h
      · exact Or.inr (by simp [h])
    · simp only [storePut, if_neg hh, List.map_cons, List.mem_cons] at h ⊢
      rcases h with h | h
      · exact Or.inr (Or.inl h)
      · rcases ih h with h2 | h2
        · exact Or.inl h2
        · exact Or.inr (Or.inr h2)

theorem storePut_keys_nodup (s : Store) (k : DocumentKey) (v : DbRemoteDocument)
    (h : (s.map Prod.fst).Nodup) : ((storePut s k v).map Prod.fst).Nodup := by
  induction s with
  | nil => simp [storePut]
  | cons hd tl ih =>
    simp only [List.map_cons, List.nodup_cons] at h
    by_cases hh : hd.1 = k
    · simp only [storePut, if_pos hh, List.map_cons, List.nodup_cons]
      exact ⟨hh ▸ h.1, h.2⟩
    · simp only [storePut, if_neg hh, List.map_cons, List.nodup_cons]
      refine ⟨fun hmem => ?_, ih h.2⟩
      rcases storePut_keys_mem _ _ _ _ hmem with h2 | h2
      · exact hh h2
      · exact h.1 h2

theorem storeDelete_sublist (s : Store) (k : DocumentKey) :
    (storeDelete s k).Sublist s := by
  induction s with
  | nil => simp [storeDelete]
  | cons hd tl ih =>
    by_cases hh : hd.1 = k
    · simp only [storeDelete, if_pos hh]
      exact List.sublist_cons_of_sublist _ (List.Sublist.refl _)
    · simp only [storeDelete, if_neg hh]
      exact List.Sublist.cons₂ _ ih

theorem storeDelete_keys_nodup (s : Store) (k : DocumentKey)
    (h : (s.map Prod.fst).Nodup) : ((storeDelete s k).map Prod.fst).Nodup :=
  ((storeDelete_sublist s k).map Prod.fst).nodup h

theorem assocSet_keys_mem {β : Type} (l : List (DocumentKey × β))
    (k : DocumentKey) (v : β) (x : DocumentKey)
    (h : x ∈ (assocSet l k v).map Prod.fst) : x = k ∨ x ∈ l.map Prod.fst := by
  induction l with
  | nil => simpa [assocSet] using h
  | cons hd tl ih =>
    by_cases hh : hd.1 = k
    · simp only [assocSet, if_pos hh, List.map_cons, List.mem_cons] at h
      rcases h with h | h
      · exact Or.inl h
      · exact Or.inr (by simp [h])
    · simp only [assocSet, if_neg hh, List.map_cons, List.mem_cons] at h ⊢
      rcases h with h | h
      · exact Or.inr (Or.inl h)
      · rcases ih h with h2 | h2
        · exact Or.inl h2
        · exact Or.inr (Or.inr h2)

theorem assocSet_keys_nodup {β : Type} (l : List (DocumentKey × β))
    (k : DocumentKey) (v : β) (h : (l.map Prod.fst).Nodup) :
    ((assocSet l k v).map Prod.fst).Nodup := by
  induction l with
  | nil => simp [assocSet]
  | cons hd tl ih =>
    simp only [List.map_cons, List.nodup_cons] at h
    by_cases hh : hd.1 = k
    · simp only [assocSet, if_pos hh, List.map_cons, List.nodup_cons]
      exact ⟨hh ▸ h.1, h.2⟩
    · simp only [assocSet, if_neg hh, List.map_cons, List.nodup_cons]
      refine ⟨fun hmem => ?_, ih h.2⟩
      rcases assocSet_keys_mem _ _ _ _ hmem with h2 | h2
      · exact hh h2
      · exact h.1 h2

/-- Re-recording an identical binding is a no-op, so a repeated buffered
read leaves the size map unchanged. -/
theorem assocSet_same {β : Type} (l : List (DocumentKey × β))
    (k : DocumentKey) (v : β) (h : assocGet l k = some v) :
    assocSet l k v = l := by
  induction l with
  | nil => simp [assocGet] at h
  | cons hd tl ih =>
    by_cases hh : hd.1 = k
    · simp only [assocGet] at h
      rw [if_pos hh] at h
      cases h
      simp only [assocSet, if_pos hh]
      rw [← hh]
    · simp only [assocGet] at h
      rw [if_neg hh] at h
      simp only [assocSet, if_neg hh]
      rw [ih h]

/-! ## `applyChanges` loop lemmas -/

theorem applyChangesLoop_store_not_mem (tr : Bool)
    (sizes : List (DocumentKey × Nat)) (L : List (DocumentKey × MutableDocument))
    (acc : Store × Int × List ResourcePath)
    (res : Store × Int × List ResourcePath) (k : DocumentKey)
    (hok : applyChangesLoop tr sizes L acc = .ok res)
    (h : k ∉ L.map Prod.fst) : storeGet res.1 k = storeGet acc.1 k := by
  induction L generalizing acc with
  | nil =>
    simp only [applyChangesLoop] at hok
    cases hok
    rfl
  | cons hd tl ih =>
    obtain ⟨st, delta, ps⟩ := acc
    simp only [List.map_cons, List.mem_cons] at h
    push_neg at h
    simp only [applyChangesLoop] at hok
    split at hok
    · simp at hok
    · split at hok
      · split at hok
        · simp at hok
        · rw [ih _ hok h.2, storeGet_put_ne _ _ _ _ h.1]
      · split at hok
        · rw [ih _ hok h.2, storeGet_put_ne _ _ _ _ h.1]
        · rw [ih _ hok h.2, storeGet_delete_ne _ _ _ h.1]

theorem applyChangesLoop_removal (tr : Bool)
    (sizes : List (DocumentKey × Nat)) (L : List (DocumentKey × MutableDocument))
    (acc : Store × Int × List ResourcePath)
    (res : Store × Int × List ResourcePath) (k : DocumentKey)
    (d : MutableDocument)
    (hok : applyChangesLoop tr sizes L acc = .ok res)
    (hmem : (k, d) ∈ L) (hnd : (L.map Prod.fst).Nodup)
    (hstore : (acc.1.map Prod.fst).Nodup)
    (hinv : d.isValidDocument = false) :
    storeGet res.1 k =
      if tr then some (toDbRemoteDocument (d.convertToNoDocument 0))
      else none := by
  induction L generalizing acc with
  | nil => simp at hmem
  | cons hd tl ih =>
    obtain ⟨st, delta, ps⟩ := acc
    simp only [List.map_cons, List.nodup_cons] at hnd
    simp only [applyChangesLoop] at hok
    rcases List.mem_cons.1 hmem with hh | hh
    · cases hh
      split at hok
      · simp at hok
      · split at hok
        · rename_i hv
          rw [hinv] at hv
          simp at hv
        · split at hok
          · rename_i htr
            rw [applyChangesLoop_store_not_mem _ _ _ _ _ _ hok hnd.1,
              storeGet_put_self, if_pos htr]
          · rename_i htr
            rw [applyChangesLoop_store_not_mem _ _ _ _ _ _ hok hnd.1,
              storeGet_delete_self_nodup _ _ hstore, if_neg htr]
    · split at hok
      · simp at hok
      · split at hok
        · split at hok
          · simp at hok
          · exact ih _ hok hh hnd.2 (storePut_keys_nodup _ _ _ hstore)
        · split at hok
          · exact ih _ hok hh hnd.2 (storePut_keys_nodup _ _ _ hstore)
          · exact ih _ hok hh hnd.2 (storeDelete_keys_nodup _ _ hstore)

theorem applyChangesLoop_zero_error (tr : Bool)
    (sizes : List (DocumentKey × Nat)) (L : List (DocumentKey × MutableDocument))
    (acc : Store × Int × List ResourcePath) (k : DocumentKey)
    (d : MutableDocument) (hmem : (k, d) ∈ L)
    (hvalid : d.isValidDocument = true) (hrt : d.readTime = 0) :
    ∃ e, applyChangesLoop tr sizes L acc = .error e := by
  induction L generalizing acc with
  | nil => simp at hmem
  | cons hd tl ih =>
    obtain ⟨st, delta, ps⟩ := acc
    rcases List.mem_cons.1 hmem with hh | hh
    · cases hh
      simp only [applyChangesLoop]
      split
      · exact ⟨_, rfl⟩
      · rw [if_pos hvalid, if_pos hrt]
        exact ⟨_, rfl⟩
    · simp only [applyChangesLoop]
      split
      · exact ⟨_, rfl⟩
      · split
        · split
          · exact ⟨_, rfl⟩
          · exact ih _ hh
        · split
          · exact ih _ hh
          · exact ih _ hh

theorem applyChangesLoop_unread_error (tr : Bool)
    (sizes : List (DocumentKey × Nat)) (L : List (DocumentKey × MutableDocument))
    (acc : Store × Int × List ResourcePath) (k : DocumentKey)
    (d : MutableDocument) (hmem : (k, d) ∈ L)
    (hun : assocGet sizes k = none) :
    ∃ e, applyChangesLoop tr sizes L acc = .error e := by
  induction L generalizing acc with
  | nil => simp at hmem
  | cons hd tl ih =>
    obtain ⟨st, delta, ps⟩ := acc
    rcases List.mem_cons.1 hmem with hh | hh
    · cases hh
      simp only [applyChangesLoop]
      split
      · exact ⟨_, rfl⟩
      · rename_i prev heq
        rw [hun] at heq
        simp at heq
    · simp only [applyChangesLoop]
      split
      · exact ⟨_, rfl⟩
      · split
        · split
          · exact ⟨_, rfl⟩
          · exact ih _ hh
        · split
          · exact ih _ hh
          · exact ih _ hh

theorem applyChangesLoop_not_notRead (tr : Bool)
    (sizes : List (DocumentKey × Nat)) (L : List (DocumentKey × MutableDocument))
    (acc : Store × Int × List ResourcePath)
    (h : ∀ kv ∈ L, (assocGet sizes kv.1).isSome = true) :
    applyChangesLoop tr sizes L acc ≠ .error .documentNotRead := by
  induction L generalizing acc with
  | nil => simp [applyChangesLoop]
  | cons hd tl ih =>
    obtain ⟨st, delta, ps⟩ := acc
    have hrest : ∀ kv ∈ tl, (assocGet sizes kv.1).isSome = true :=
      fun kv hkv => h kv (List.mem_cons_of_mem _ hkv)
    simp only [applyChangesLoop]
    split
    · rename_i heq
      have hhd := h hd (List.mem_cons_self _ _)
      rw [heq] at hhd
      simp at hhd
    · split
      · split
        · simp
        · exact ih _ hrest
      · split
        · exact ih _ hrest
        · exact ih _ hrest

theorem applyChangesLoop_ok_iff (tr : Bool) (sizes : List (DocumentKey × Nat))
    (L : List (DocumentKey × MutableDocument))
    (acc : Store × Int × List ResourcePath) :
    (∃ res, applyChangesLoop tr sizes L acc = .ok res) ↔
      ∀ kv ∈ L, (assocGet sizes kv.1).isSome = true ∧
        (kv.2.isValidDocument = true → kv.2.readTime ≠ 0) := by
  induction L generalizing acc with
  | nil =>
    simp only [applyChangesLoop]
    constructor
    · intro _ kv hkv
      simp at hkv
    · intro _
      exact ⟨acc, rfl⟩
  | cons hd tl ih =>
    obtain ⟨st, delta, ps⟩ := acc
    simp only [applyChangesLoop]
    constructor
    · rintro ⟨res, hres⟩
      split at hres
      · simp at hres
      · rename_i prev heq
        split at hres
        · rename_i hv
          split at hres
          · simp at hres
          · rename_i hrt
            have htl := (ih _).1 ⟨res, hres⟩
            intro kv hkv
            rcases List.mem_cons.1 hkv with rfl | hkv2
            · exact ⟨by simp [heq], fun _ => hrt⟩
            · exact htl kv hkv2
        · rename_i hv
          split at hres
          · have htl := (ih _).1 ⟨res, hres⟩
            intro kv hkv
            rcases List.mem_cons.1 hkv with rfl | hkv2
            · exact ⟨by simp [heq], fun hvv => absurd hvv hv⟩
            · exact htl kv hkv2
          · have htl := (ih _).1 ⟨res, hres⟩
            intro kv hkv
            rcases List.mem_cons.1 hkv with rfl | hkv2
            · exact ⟨by simp [heq], fun hvv => absurd hvv hv⟩
            · exact htl kv hkv2
    · intro h
      have hhd := h hd (List.mem_cons_self _ _)
      have hrest := fun kv hkv => h kv (List.mem_cons_of_mem _ hkv)
      split
      · rename_i heq
        rw [heq] at hhd
        simp at hhd
      · by_cases hv : hd.2.isValidDocument = true
        · rw [if_pos hv, if_neg (hhd.2 hv)]
          exact (ih _).2 hrest
        · rw [if_neg hv]
          by_cases htr : tr = true
          · rw [if_pos htr]
            exact (ih _).2 hrest
          · rw [if_neg htr]
            exact (ih _).2 hrest

theorem applyChanges_error_iff (b : ChangeBuffer) (c : CacheState)
    (e : ApplyError) :
    applyChanges b c = .error e ↔
      applyChangesLoop b.trackRemovals b.documentSizes b.changes
        (c.store, 0, []) = .error e := by
  unfold applyChanges
  split
  · rename_i e2 heq
    simp [heq]
  · rename_i store sizeDelta parents heq
    simp [heq]

/-- C6: on `applyChanges`, a staged invalid (deleted) document is persisted
as a sentinel tombstone — the document converted to a no-document at the
minimum version — when the buffer tracks removals, and is physically
removed from the store otherwise. -/
theorem C6_tracked_removals (b : ChangeBuffer) (c : CacheState)
    (k : DocumentKey) (d : MutableDocument) (c2 : CacheState)
    (ps : List ResourcePath)
    (hok : applyChanges b c = .ok (c2, ps))
    (hmem : (k, d) ∈ b.changes)
    (hnd : (b.changes.map Prod.fst).Nodup)
    (hstore : (c.store.map Prod.fst).Nodup)
    (hinv : d.isValidDocument = false) :
    storeGet c2.store k =
      if b.trackRemovals then
        some (toDbRemoteDocument (d.convertToNoDocument 0))
      else none := by
  unfold applyChanges at hok
  split at hok
  · simp at hok
  · rename_i store sizeDelta parents heq
    cases hok
    exact applyChangesLoop_removal _ _ _ _ _ _ _ heq hmem hnd hstore hinv

/-- C10: a valid document staged with the default minimum read time cannot
be committed: `applyChanges` fails with a debug assertion, and when every
staged key was read through the buffer the failure is precisely the
read-time-of-zero assertion. -/
theorem C10_zero_read_time_assertion (b : ChangeBuffer) (c : CacheState)
    (k : DocumentKey) (d : MutableDocument)
    (hmem : (k, d) ∈ b.changes)
    (hvalid : d.isValidDocument = true) (hrt : d.readTime = 0) :
    (∃ e, applyChanges b c = .error e) ∧
    ((∀ kv ∈ b.changes, (assocGet b.documentSizes kv.1).isSome = true) →
      applyChanges b c = .error .zeroReadTime) := by
  obtain ⟨e, he⟩ := applyChangesLoop_zero_error b.trackRemovals
    b.documentSizes b.changes (c.store, 0, []) k d hmem hvalid hrt
  have happly : applyChanges b c = .error e := (applyChanges_error_iff b c e).2 he
  refine ⟨⟨e, happly⟩, fun hread => ?_⟩
  cases e with
  | documentNotRead =>
    exact absurd he (applyChangesLoop_not_notRead _ _ _ _ hread)
  | zeroReadTime => exact happly

/-- C8: staging a key never read through the buffer makes `applyChanges`
fail its assertion; conversely a buffered read of an unstaged key records
the key's pre-existing size (exactly once: repeating the read is a no-op),
and when every staged key has a recorded size the
document-not-read assertion cannot fire. -/
theorem C8_unread_key_assertion (b : ChangeBuffer) (c : CacheState)
    (s : Store) (k : DocumentKey) :
    ((∃ d, (k, d) ∈ b.changes) → assocGet b.documentSizes k = none →
      ∃ e, applyChanges b c = .error e) ∧
    ((assocGet b.changes k).isSome = false →
      assocGet (bufferRead s b k).documentSizes k =
        some (dbDocumentSizeOpt (storeGet s k))) ∧
    bufferRead s (bufferRead s b k) k = bufferRead s b k ∧
    ((∀ kv ∈ b.changes, (assocGet b.documentSizes kv.1).isSome = true) →
      applyChanges b c ≠ .error .documentNotRead) := by
  refine ⟨?_, ?_, ?_, ?_⟩
  · rintro ⟨d, hmem⟩ hun
    obtain ⟨e, he⟩ := applyChangesLoop_unread_error b.trackRemovals
      b.documentSizes b.changes (c.store, 0, []) k d hmem hun
    exact ⟨e, (applyChanges_error_iff b c e).2 he⟩
  · intro hmiss
    simp only [bufferRead, hmiss, Bool.false_eq_true, if_neg, ite_false,
      recordReadSize]
    exact assocGet_set_self _ _ _
  · by_cases hmiss : (assocGet b.changes k).isSome = true
    · simp [bufferRead, hmiss]
    · have hm : (assocGet b.changes k).isSome = false := by
        simpa using hmiss
      simp only [bufferRead, recordReadSize, hm, Bool.false_eq_true, if_neg,
        ite_false]
      congr 1
      exact assocSet_same _ _ _ (assocGet_set_self _ _ _)
  · intro hread hcontra
    exact applyChangesLoop_not_notRead _ _ _ _ hread
      ((applyChanges_error_iff b c _).1 hcontra)

/-! ## Collection-parent set lemmas -/

/-- The invariant of the `SortedSet` of touched parents: strictly
increasing canonical strings. -/
def ParentsInv (ps : List ResourcePath) : Prop :=
  ps.Pairwise (fun a b =>
    charsCompare (canonicalString a) (canonicalString b) = .lt)

/-- A path whose segments exist and avoid the `/` separator, as real
document-key segments do. -/
def slashFreePath (p : ResourcePath) : Prop :=
  p ≠ [] ∧ ∀ seg ∈ p, '/' ∉ seg.data

instance (p : ResourcePath) : Decidable (slashFreePath p) := by
  unfold slashFreePath
  infer_instance

/-- On slash-free paths the canonical string determines the path. -/
theorem canonicalString_inj (p q : ResourcePath) (hp : slashFreePath p)
    (hq : slashFreePath q) (h : canonicalString p = canonicalString q) :
    p = q := by
  unfold canonicalString at h
  have h2 := congrArg (List.splitOn '/') h
  rw [List.splitOn_intercalate _ _
        (fun l hl => by
          rcases List.mem_map.1 hl with ⟨seg, hseg, rfl⟩
          exact hp.2 seg hseg)
        (by simpa using hp.1),
      List.splitOn_intercalate _ _
        (fun l hl => by
          rcases List.mem_map.1 hl with ⟨seg, hseg, rfl⟩
          exact hq.2 seg hseg)
        (by simpa using hq.1)] at h2
  have hinj : Function.Injective String.data := by
    intro a b hab
    cases a
    cases b
    exact congrArg String.mk hab
  exact List.map_injective_iff.2 hinj h2

theorem sortedSetAdd_mem_sub (ps : List ResourcePath) (p q : ResourcePath)
    (h : q ∈ sortedSetAdd ps p) : q = p ∨ q ∈ ps := by
  induction ps with
  | nil => simpa [sortedSetAdd] using h
  | cons r rest ih =>
    simp only [sortedSetAdd] at h
    rcases hc : charsCompare (canonicalString p) (canonicalString r) with _ | _ | _
    · rw [hc] at h
      rcases List.mem_cons.1 h with h2 | h2
      · exact Or.inl h2
      · exact Or.inr h2
    · rw [hc] at h
      rcases List.mem_cons.1 h with h2 | h2
      · exact Or.inl h2
      · exact Or.inr (List.mem_cons_of_mem _ h2)
    · rw [hc] at h
      rcases List.mem_cons.1 h with h2 | h2
      · exact Or.inr (by simp [h2])
      · rcases ih h2 with h3 | h3
        · exact Or.inl h3
        · exact Or.inr (List.mem_cons_of_mem _ h3)

theorem self_mem_sortedSetAdd (ps : List ResourcePath) (p : ResourcePath) :
    p ∈ sortedSetAdd ps p := by
  induction ps with
  | nil => simp [sortedSetAdd]
  | cons r rest ih =>
    simp only [sortedSetAdd]
    rcases hc : charsCompare (canonicalString p) (canonicalString r) with _ | _ | _
    · exact List.mem_cons_self _ _
    · exact List.mem_cons_self _ _
    · exact List.mem_cons_of_mem _ ih

theorem mem_sortedSetAdd_of_mem (ps : List ResourcePath) (p q : ResourcePath)
    (hq : q ∈ ps) (hinv : ParentsInv ps) :
    q ∈ sortedSetAdd ps p ∨ canonicalString q = canonicalString p := by
  induction ps with
  | nil => simp at hq
  | cons r rest ih =>
    rw [ParentsInv, List.pairwise_cons] at hinv
    simp only [sortedSetAdd]
    rcases hc : charsCompare (canonicalString p) (canonicalString r) with _ | _ | _
    · exact Or.inl (List.mem_cons_of_mem _ hq)
    · rcases List.mem_cons.1 hq with rfl | h2
      · exact Or.inr ((charsCompare_laws.eq_iff _ _).1 hc).symm
      · exact Or.inl (List.mem_cons_of_mem _ h2)
    · rcases List.mem_cons.1 hq with rfl | h2
      · exact Or.inl (List.mem_cons_self _ _)
      · rcases ih h2 hinv.2 with h3 | h3
        · exact Or.inl (List.mem_cons_of_mem _ h3)
        · exact Or.inr h3

theorem sortedSetAdd_parentsInv (ps : List ResourcePath) (p : ResourcePath)
    (hinv : ParentsInv ps) : ParentsInv (sortedSetAdd ps p) := by
  induction ps with
  | nil => simp [sortedSetAdd, ParentsInv]
  | cons r rest ih =>
    rw [ParentsInv, List.pairwise_cons] at hinv
    simp only [sortedSetAdd]
    rcases hc : charsCompare (canonicalString p) (canonicalString r) with _ | _ | _
    · rw [ParentsInv, List.pairwise_cons]
      refine ⟨?_, List.pairwise_cons.2 hinv⟩
      intro x hx
      rcases List.mem_cons.1 hx with rfl | h2
      · exact hc
      · exact charsCompare_laws.lt_trans _ _ _ hc (hinv.1 x h2)
    · rw [ParentsInv, List.pairwise_cons]
      refine ⟨?_, hinv.2⟩
      intro x hx
      rw [(charsCompare_laws.eq_iff _ _).1 hc]
      exact hinv.1 x hx
    · rw [ParentsInv, List.pairwise_cons]
      refine ⟨?_, ih hinv.2⟩
      intro x hx
      rcases sortedSetAdd_mem_sub _ _ _ hx with rfl | h2
      · have hs := charsCompare_laws.swap (canonicalString x) (canonicalString r)
        rw [hc] at hs
        exact hs.symm
      · exact hinv.1 x h2

theorem parentsInv_canon_nodup (ps : List ResourcePath) (hinv : ParentsInv ps) :
    (ps.map canonicalString).Nodup := by
  rw [List.Nodup, List.pairwise_map]
  refine hinv.imp ?_
  intro a b hab heq
  rw [heq, (charsCompare_laws.eq_iff _ _).2 rfl] at hab
  simp at hab

theorem applyChangesLoop_parents (tr : Bool) (sizes : List (DocumentKey × Nat))
    (L : List (DocumentKey × MutableDocument)) (st : Store) (delta : Int)
    (ps0 : List ResourcePath) (res : Store × Int × List ResourcePath)
    (hok : applyChangesLoop tr sizes L (st, delta, ps0) = .ok res)
    (hinv : ParentsInv ps0)
    (hsf0 : ∀ q ∈ ps0, slashFreePath q)
    (hsfL : ∀ kv ∈ L, kv.2.isValidDocument = true →
      slashFreePath kv.1.dropLast) :
    ParentsInv res.2.2 ∧ (∀ q ∈ res.2.2, slashFreePath q) ∧
    ∀ q, q ∈ res.2.2 ↔
      (q ∈ ps0 ∨ ∃ kv ∈ L, kv.2.isValidDocument = true ∧
        q = kv.1.dropLast) := by
  induction L generalizing st delta ps0 with
  | nil =>
    simp only [applyChangesLoop] at hok
    cases hok
    refine ⟨hinv, hsf0, fun q => ?_⟩
    constructor
    · exact Or.inl
    · rintro (hq | ⟨kv, hkv, _, _⟩)
      · exact hq
      · simp at hkv
  | cons hd tl ih =>
    have hsfTl : ∀ kv ∈ tl, kv.2.isValidDocument = true →
        slashFreePath kv.1.dropLast :=
      fun kv hkv => hsfL kv (List.mem_cons_of_mem _ hkv)
    simp only [applyChangesLoop] at hok
    split at hok
    · simp at hok
    · split at hok
      · rename_i hv
        split at hok
        · simp at hok
        · have hp : slashFreePath hd.1.dropLast :=
            hsfL hd (List.mem_cons_self _ _) hv
          have hinv1 := sortedSetAdd_parentsInv _ hd.1.dropLast hinv
          have hsf1 : ∀ q ∈ sortedSetAdd ps0 hd.1.dropLast, slashFreePath q := by
            intro q hq
            rcases sortedSetAdd_mem_sub _ _ _ hq with rfl | h2
            · exact hp
            · exact hsf0 q h2
          obtain ⟨ih1, ih2, ih3⟩ := ih _ _ _ hok hinv1 hsf1 hsfTl
          refine ⟨ih1, ih2, fun q => ?_⟩
          rw [ih3 q]
          constructor
          · rintro (hq | ⟨kv, hkv, hkvv, rfl⟩)
            · rcases sortedSetAdd_mem_sub _ _ _ hq with rfl | h2
              · exact Or.inr ⟨hd, List.mem_cons_self _ _, hv, rfl⟩
              · exact Or.inl h2
            · exact Or.inr ⟨kv, List.mem_cons_of_mem _ hkv, hkvv, rfl⟩
          · rintro (hq | ⟨kv, hkv, hkvv, rfl⟩)
            · rcases mem_sortedSetAdd_of_mem _ hd.1.dropLast _ hq hinv with h2 | h2
              · exact Or.inl h2
              · rw [canonicalString_inj _ _ (hsf0 q hq) hp h2]
                exact Or.inl (self_mem_sortedSetAdd _ _)
            · rcases List.mem_cons.1 hkv with rfl | h2
              · exact Or.inl (self_mem_sortedSetAdd _ _)
              · exact Or.inr ⟨kv, h2, hkvv, rfl⟩
      · rename_i hv
        have hnext : ∀ acc2 : Store × Int,
            applyChangesLoop tr sizes tl (acc2.1, acc2.2, ps0) = .ok res →
            ParentsInv res.2.2 ∧ (∀ q ∈ res.2.2, slashFreePath q) ∧
            ∀ q, q ∈ res.2.2 ↔
              (q ∈ ps0 ∨ ∃ kv ∈ hd :: tl, kv.2.isValidDocument = true ∧
                q = kv.1.dropLast) := by
          intro acc2 hok2
          obtain ⟨ih1, ih2, ih3⟩ := ih _ _ _ hok2 hinv hsf0 hsfTl
          refine ⟨ih1, ih2, fun q => ?_⟩
          rw [ih3 q]
          constructor
          · rintro (hq | ⟨kv, hkv, hkvv, rfl⟩)
            · exact Or.inl hq
            · exact Or.inr ⟨kv, List.mem_cons_of_mem _ hkv, hkvv, rfl⟩
          · rintro (hq | ⟨kv, hkv, hkvv, rfl⟩)
            · exact Or.inl hq
            · rcases List.mem_cons.1 hkv with rfl | h2
              · exact absurd hkvv hv
              · exact Or.inr ⟨kv, h2, hkvv, rfl⟩
        split at hok
        · exact hnext (_, _) hok
        · exact hnext (_, _) hok

/-- C9: within one `applyChanges` transaction the index manager is
notified at most once per distinct collection parent: the notified set is
exactly, without duplicates, the set of parent paths (key minus last
segment) of the staged valid documents. -/
theorem C9_collection_parent_notifications (b : ChangeBuffer) (c : CacheState)
    (c2 : CacheState) (ps : List ResourcePath)
    (hok : applyChanges b c = .ok (c2, ps))
    (hsf : ∀ kv ∈ b.changes, kv.2.isValidDocument = true →
      slashFreePath kv.1.dropLast) :
    ps.Nodup ∧ (ps.map canonicalString).Nodup ∧
    ∀ q, q ∈ ps ↔
      ∃ kv ∈ b.changes, kv.2.isValidDocument = true ∧
        q = kv.1.dropLast := by
  unfold applyChanges at hok
  split at hok
  · simp at hok
  · rename_i store sizeDelta parents heq
    cases hok
    obtain ⟨h1, h2, h3⟩ := applyChangesLoop_parents _ _ _ _ _ _ _ heq
      (by simp [ParentsInv]) (by simp) hsf
    have hnodupc := parentsInv_canon_nodup _ h1
    refine ⟨hnodupc.of_map, hnodupc, fun q => ?_⟩
    rw [h3 q]
    constructor
    · rintro (hq | hq)
      · simp at hq
      · exact hq
    · exact Or.inr

/-! ## Quasi-order laws for the index comparators -/

/-- Laws of a comparator on entries that may identify distinct elements
(only the compared component matters). -/
structure WCmp {α : Type} (cmp : α → α → Ordering) : Prop where
  swap : ∀ a b, (cmp a b).swap = cmp b a
  lt_trans : ∀ a b c, cmp a b = .lt → cmp b c = .lt → cmp a c = .lt
  eq_left : ∀ a b c, cmp a b = .eq → cmp a c = cmp b c

theorem CmpLaws.toWCmp {α : Type} {cmp : α → α → Ordering} (h : CmpLaws cmp) :
    WCmp cmp :=
  ⟨h.swap, h.lt_trans, fun a b c hab => by rw [(h.eq_iff a b).1 hab]⟩

theorem WCmp.eq_right {α : Type} {cmp : α → α → Ordering} (h : WCmp cmp)
    (a b c : α) (hbc : cmp b c = .eq) : cmp a b = cmp a c := by
  have h1 : cmp c b = .eq := by
    rw [← h.swap b c, hbc]
    rfl
  rw [← h.swap b a, ← h.swap c a, h.eq_left c b a h1]

theorem WCmp.le_trans {α : Type} {cmp : α → α → Ordering} (h : WCmp cmp)
    {a b c : α} (hab : cmp a b ≠ .gt) (hbc : cmp b c ≠ .gt) :
    cmp a c ≠ .gt := by
  rcases o1 : cmp a b with _ | _ | _
  · rcases o2 : cmp b c with _ | _ | _
    · rw [h.lt_trans a b c o1 o2]
      simp
    · rw [← h.eq_right a b c o2, o1]
      simp
    · exact absurd o2 hbc
  · rw [h.eq_left a b c o1]
    exact hbc
  · exact absurd o1 hab

theorem WCmp.le_total {α : Type} {cmp : α → α → Ordering} (h : WCmp cmp)
    (a b : α) : cmp a b ≠ .gt ∨ cmp b a ≠ .gt := by
  rcases o1 : cmp a b with _ | _ | _
  · simp
  · simp
  · right
    have hs := h.swap a b
    rw [o1] at hs
    rw [← hs]
    decide

/-- Lexicographic combination of two entry comparators. -/
theorem pairWCmp {α : Type} {f g : α → α → Ordering} (hf : WCmp f)
    (hg : WCmp g) :
    WCmp (fun x y => match f x y with | .eq => g x y | o => o) := by
  constructor
  · intro a b
    rcases hab : f a b with _ | _ | _ <;>
      have hs := hf.swap a b <;> rw [hab] at hs
    · simp only []
      rw [← hs]
      rfl
    · simp only []
      rw [← hs]
      exact hg.swap a b
    · simp only []
      rw [← hs]
      rfl
  · intro a b c hab hbc
    rcases o1 : f a b with _ | _ | _ <;> rw [o1] at hab
    · rcases o2 : f b c with _ | _ | _ <;> rw [o2] at hbc
      · rw [hf.lt_trans a b c o1 o2]
      · rw [← hf.eq_right a b c o2, o1]
      · simp at hbc
    · rcases o2 : f b c with _ | _ | _ <;> rw [o2] at hbc
      · rw [hf.eq_left a b c o1, o2]
      · rw [hf.eq_left a b c o1, o2]
        exact hg.lt_trans a b c hab hbc
      · simp at hbc
    · simp at hab
  · intro a b c hab
    rcases o1 : f a b with _ | _ | _ <;> rw [o1] at hab <;> try simp at hab
    have hfeq : f a c = f b c := hf.eq_left a b c o1
    rw [hfeq]
    rcases o2 : f b c with _ | _ | _
    · rfl
    · exact hg.eq_left a b c hab
    · rfl

/-- Three-way comparison of naturals (read-time keys). -/
def natCompare (a b : Nat) : Ordering :=
  if a < b then .lt else if b < a then .gt else .eq

/-- The `readTime` index comparator: read time, then primary key. -/
def readTimeIdxCmp (x y : StoreEntry) : Ordering :=
  match natCompare x.2.readTime y.2.readTime with
  | .eq => pathCompare x.1 y.1
  | o => o

theorem natCompare_laws : CmpLaws natCompare := by
  constructor
  · intro a b
    unfold natCompare
    constructor
    · intro h
      split at h
      · simp at h
      · split at h
        · simp at h
        · omega
    · intro h
      subst h
      simp
  · intro a b
    unfold natCompare
    rcases Nat.lt_trichotomy a b with h | h | h
    · simp [h, show ¬ b < a from by omega, Ordering.swap]
    · simp [h, lt_irrefl, Ordering.swap]
    · simp [h, show ¬ a < b from by omega, Ordering.swap]
  · intro a b c hab hbc
    unfold natCompare at *
    split at hab
    · split at hbc
      · rw [if_pos (by omega)]
      · split at hbc <;> simp_all
    · split at hab <;> simp_all

theorem pathEntryCmp_wcmp : WCmp (fun x y : StoreEntry => pathCompare x.1 y.1) := by
  constructor
  · intro a b
    exact pathCompare_laws.swap a.1 b.1
  · intro a b c hab hbc
    exact pathCompare_laws.lt_trans _ _ _ hab hbc
  · intro a b c hab
    rw [(pathCompare_laws.eq_iff _ _).1 hab]

theorem rtEntryCmp_wcmp :
    WCmp (fun x y : StoreEntry => natCompare x.2.readTime y.2.readTime) := by
  constructor
  · intro a b
    exact natCompare_laws.swap _ _
  · intro a b c hab hbc
    exact natCompare_laws.lt_trans _ _ _ hab hbc
  · intro a b c hab
    rw [(natCompare_laws.eq_iff _ _).1 hab]

theorem readTimeIdxCmp_wcmp : WCmp readTimeIdxCmp :=
  pairWCmp rtEntryCmp_wcmp pathEntryCmp_wcmp

/-! ## Sortedness of the index iterations -/

theorem primaryLe_iff (x y : StoreEntry) :
    primaryLe x y = true ↔ pathCompare x.1 y.1 ≠ .gt := by
  simp [primaryLe]

theorem readTimeIdxLe_iff (x y : StoreEntry) :
    readTimeIdxLe x y = true ↔ readTimeIdxCmp x y ≠ .gt := by
  unfold readTimeIdxLe readTimeIdxCmp natCompare
  by_cases h1 : x.2.readTime < y.2.readTime
  · simp [h1]
  · by_cases h2 : y.2.readTime < x.2.readTime
    · simp [h1, h2]
    · simp [h1, h2, primaryLe]

theorem readTimeIdxLe_trans (a b c : StoreEntry)
    (hab : readTimeIdxLe a b = true) (hbc : readTimeIdxLe b c = true) :
    readTimeIdxLe a c = true :=
  (readTimeIdxLe_iff a c).2 (readTimeIdxCmp_wcmp.le_trans
    ((readTimeIdxLe_iff a b).1 hab) ((readTimeIdxLe_iff b c).1 hbc))

theorem readTimeIdxLe_total (a b : StoreEntry) :
    (readTimeIdxLe a b || readTimeIdxLe b a) = true := by
  rcases readTimeIdxCmp_wcmp.le_total a b with h | h
  · rw [(readTimeIdxLe_iff a b).2 h]
    simp
  · rw [(readTimeIdxLe_iff b a).2 h]
    simp

theorem readTimeIdxLe_rt_le (a b : StoreEntry)
    (h : readTimeIdxLe a b = true) : a.2.readTime ≤ b.2.readTime := by
  unfold readTimeIdxLe at h
  by_cases h1 : a.2.readTime < b.2.readTime
  · exact Nat.le_of_lt h1
  · rw [if_neg h1] at h
    by_cases h2 : b.2.readTime < a.2.readTime
    · rw [if_pos h2] at h
      simp at h
    · exact Nat.le_of_not_lt h2

theorem entriesByReadTime_sorted (s : Store) :
    (entriesByReadTime s).Pairwise (fun a b => readTimeIdxLe a b = true) :=
  sortEntries_pairwise readTimeIdxLe readTimeIdxLe_trans readTimeIdxLe_total s

theorem newChangesEntries_sorted (s : Store) (t : SnapshotVersion) :
    (newChangesEntries s t).Pairwise (fun a b => readTimeIdxLe a b = true) :=
  (entriesByReadTime_sorted s).filter _

theorem newChangesEntries_mem (s : Store) (t : SnapshotVersion)
    (e : StoreEntry) :
    e ∈ newChangesEntries s t ↔ e ∈ s ∧ t < e.2.readTime := by
  unfold newChangesEntries entriesByReadTime
  rw [List.mem_filter, mem_sortEntries]
  simp [toDbTimestampKey]

theorem newChangesEntries_keys_nodup (s : Store) (t : SnapshotVersion)
    (h : (s.map Prod.fst).Nodup) :
    ((newChangesEntries s t).map Prod.fst).Nodup := by
  have hperm : (entriesByReadTime s).Perm s := sortEntries_perm _ s
  have h2 : ((entriesByReadTime s).map Prod.fst).Nodup :=
    ((hperm.map Prod.fst).nodup_iff).2 h
  exact ((List.filter_sublist _).map Prod.fst).nodup h2

/-! ## The change-enumeration fold -/

theorem newChangesFoldAux (L : List StoreEntry) (m0 : DocMap)
    (r0 : DbTimestampKey) :
    (L.foldl (fun (acc : DocMap × DbTimestampKey) e =>
        (mapInsert acc.1 (fromDbRemoteDocument e.2).key (fromDbRemoteDocument e.2),
         e.2.readTime)) (m0, r0)) =
      ((L.map (fun e =>
          ((fromDbRemoteDocument e.2).key, fromDbRemoteDocument e.2))).foldl
        (fun acc kv => mapInsert acc kv.1 kv.2) m0,
       (L.map (fun e => e.2.readTime)).getLastD r0) := by
  induction L generalizing m0 r0 with
  | nil => rfl
  | cons hd tl ih =>
    simp only [List.foldl_cons, List.map_cons, List.getLastD_cons]
    exact ih _ _

theorem getLastD_mem (l : List Nat) (d : Nat) (h : l ≠ []) :
    l.getLastD d ∈ l := by
  induction l generalizing d with
  | nil => exact absurd rfl h
  | cons a tl ih =>
    rw [List.getLastD_cons]
    cases tl with
    | nil => simp [List.getLastD]
    | cons b tl2 => exact List.mem_cons_of_mem _ (ih _ (by simp))

theorem sorted_rt_le_getLastD (L : List StoreEntry) (r0 : Nat)
    (hs : L.Pairwise (fun a b => readTimeIdxLe a b = true)) :
    ∀ x ∈ L, x.2.readTime ≤ (L.map (fun e => e.2.readTime)).getLastD r0 := by
  induction L generalizing r0 with
  | nil => intro x hx; simp at hx
  | cons hd tl ih =>
    rw [List.pairwise_cons] at hs
    intro x hx
    simp only [List.map_cons, List.getLastD_cons]
    rcases List.mem_cons.1 hx with rfl | hx2
    · cases tl with
      | nil => simp [List.getLastD]
      | cons b tl2 =>
        have hmem := getLastD_mem ((b :: tl2).map (fun e => e.2.readTime))
          x.2.readTime (by simp)
        rcases List.mem_map.1 hmem with ⟨y, hy, hyeq⟩
        rw [← hyeq]
        exact readTimeIdxLe_rt_le _ _ (hs.1 y hy)
    · exact ih _ hs.2 x hx2

/-- Well-formedness of the store: unique primary keys, and every record
carries its own key and parent path, as the serializer writes them. -/
structure StoreWF (s : Store) : Prop where
  nodup : (s.map Prod.fst).Nodup
  path_eq : ∀ kv ∈ s, kv.2.path = kv.1
  parent_eq : ∀ kv ∈ s, kv.2.parentPath = kv.1.dropLast

theorem getNewDocumentChanges_fst (s : Store) (t : SnapshotVersion) :
    (remoteDocumentCacheGetNewDocumentChanges s t).1 =
      ((newChangesEntries s t).map (fun e =>
        ((fromDbRemoteDocument e.2).key, fromDbRemoteDocument e.2))).foldl
        (fun acc kv => mapInsert acc kv.1 kv.2) mapEmpty := by
  simp only [remoteDocumentCacheGetNewDocumentChanges, newChangesFoldAux]

theorem getNewDocumentChanges_of_empty (s : Store) (u : SnapshotVersion)
    (h : newChangesEntries s u = []) :
    remoteDocumentCacheGetNewDocumentChanges s u = (mapEmpty, u) := by
  simp only [remoteDocumentCacheGetNewDocumentChanges, h, List.foldl_nil]
  rfl

theorem getNewDocumentChanges_snd (s : Store) (t : SnapshotVersion) :
    (remoteDocumentCacheGetNewDocumentChanges s t).2 =
      ((newChangesEntries s t).map (fun e => e.2.readTime)).getLastD t := by
  simp only [remoteDocumentCacheGetNewDocumentChanges, newChangesFoldAux]
  rfl

/-- C2: the change enumeration returns exactly the documents (sentinel
tombstones included, decoded as stored) whose read time strictly exceeds
the bound; the iteration is ordered by read time; the returned checkpoint
is the bound when nothing changed and otherwise the maximum read time
observed; and enumerating again from that checkpoint on the same store
returns nothing — every change is delivered exactly once, with no gap. -/
theorem C2_change_enumeration (s : Store) (t : SnapshotVersion)
    (hwf : StoreWF s) :
    (∀ k d, mapGet (remoteDocumentCacheGetNewDocumentChanges s t).1 k = some d ↔
      ∃ e, (k, e) ∈ s ∧ t < e.readTime ∧ d = fromDbRemoteDocument e) ∧
    (newChangesEntries s t).Pairwise
      (fun a b => a.2.readTime ≤ b.2.readTime) ∧
    (newChangesEntries s t = [] →
      (remoteDocumentCacheGetNewDocumentChanges s t).2 = t) ∧
    (∀ e2 ∈ newChangesEntries s t,
      e2.2.readTime ≤ (remoteDocumentCacheGetNewDocumentChanges s t).2) ∧
    (newChangesEntries s t ≠ [] →
      (remoteDocumentCacheGetNewDocumentChanges s t).2 ∈
        (newChangesEntries s t).map (fun e => e.2.readTime)) ∧
    remoteDocumentCacheGetNewDocumentChanges s
        ((remoteDocumentCacheGetNewDocumentChanges s t).2) =
      (mapEmpty, (remoteDocumentCacheGetNewDocumentChanges s t).2) := by
  have hmapkeys :
      ((newChangesEntries s t).map (fun e =>
        ((fromDbRemoteDocument e.2).key, fromDbRemoteDocument e.2))).map
          Prod.fst = (newChangesEntries s t).map Prod.fst := by
    rw [List.map_map]
    apply List.map_congr_left
    intro a ha
    have hpa := hwf.path_eq a ((newChangesEntries_mem s t a).1 ha).1
    simp [fromDbRemoteDocument, hpa]
  refine ⟨?_, ?_, ?_, ?_, ?_, ?_⟩
  · intro k d
    rw [getNewDocumentChanges_fst]
    constructor
    · intro h
      rcases mapGet_foldl_inv _ _ _ _ h with hmem | hmem
      · rcases List.mem_map.1 hmem with ⟨e2, he2, heq⟩
        rw [Prod.mk.injEq] at heq
        have hes := (newChangesEntries_mem s t e2).1 he2
        have hpath := hwf.path_eq e2 hes.1
        refine ⟨e2.2, ?_, hes.2, heq.2.symm⟩
        have hk2 : (fromDbRemoteDocument e2.2).key = e2.1 := by
          simp [fromDbRemoteDocument, hpath]
        rw [← heq.1, hk2]
        exact hes.1
      · simp [mapEmpty, mapGet] at hmem
    · rintro ⟨e, hes, hrt, rfl⟩
      have hentry : (k, e) ∈ newChangesEntries s t :=
        (newChangesEntries_mem s t (k, e)).2 ⟨hes, hrt⟩
      have hpath : e.path = k := hwf.path_eq (k, e) hes
      have hkey : (fromDbRemoteDocument e).key = k := by
        simp [fromDbRemoteDocument, hpath]
      apply mapGet_foldl_mem
      · exact List.mem_map.2 ⟨(k, e), hentry, by
          rw [Prod.mk.injEq]
          exact ⟨hkey, rfl⟩⟩
      · rw [hmapkeys]
        exact newChangesEntries_keys_nodup s t hwf.nodup
  · exact (newChangesEntries_sorted s t).imp
      (fun hab => readTimeIdxLe_rt_le _ _ hab)
  · intro hemp
    rw [getNewDocumentChanges_snd, hemp]
    rfl
  · intro e2 he2
    rw [getNewDocumentChanges_snd]
    exact sorted_rt_le_getLastD _ _ (newChangesEntries_sorted s t) e2 he2
  · intro hne
    rw [getNewDocumentChanges_snd]
    exact getLastD_mem _ _ (by simpa using hne)
  · have ht_le : t ≤ (remoteDocumentCacheGetNewDocumentChanges s t).2 := by
      by_cases hemp : newChangesEntries s t = []
      · rw [getNewDocumentChanges_snd, hemp]
        exact le_refl t
      · rw [getNewDocumentChanges_snd]
        have hm := getLastD_mem
          ((newChangesEntries s t).map (fun e => e.2.readTime)) t
          (by simpa using hemp)
        rcases List.mem_map.1 hm with ⟨y, hy, hyeq⟩
        rw [← hyeq]
        exact Nat.le_of_lt ((newChangesEntries_mem s t y).1 hy).2
    have hempty2 : newChangesEntries s
        ((remoteDocumentCacheGetNewDocumentChanges s t).2) = [] := by
      by_contra hne
      obtain ⟨e2, he2⟩ := List.exists_mem_of_ne_nil _ hne
      have h1 := (newChangesEntries_mem s _ e2).1 he2
      have h2 : e2 ∈ newChangesEntries s t :=
        (newChangesEntries_mem s t e2).2
          ⟨h1.1, Nat.lt_of_le_of_lt ht_le h1.2⟩
      have h3 := sorted_rt_le_getLastD _ t (newChangesEntries_sorted s t) e2 h2
      rw [← getNewDocumentChanges_snd] at h3
      exact absurd h1.2 (Nat.not_lt_of_le h3)
    exact getNewDocumentChanges_of_empty s _ hempty2

/-! ## Size accounting of a buffer session -/

/-- Every size recorded in the buffer matches the current store (the store
does not change during the buffer's lifetime: writes are deferred). -/
def SizesAccurate (st : Store) (b : ChangeBuffer) : Prop :=
  ∀ k n, assocGet b.documentSizes k = some n →
    n = dbDocumentSizeOpt (storeGet st k)

theorem bufferRead_accurate (st : Store) (b : ChangeBuffer) (k : DocumentKey)
    (h : SizesAccurate st b) : SizesAccurate st (bufferRead st b k) := by
  unfold bufferRead
  split
  · exact h
  · intro k2 n hn
    unfold recordReadSize at hn
    simp only at hn
    by_cases hk : k2 = k
    · subst hk
      rw [assocGet_set_self] at hn
      cases hn
      rfl
    · rw [assocGet_set_ne _ _ _ _ hk] at hn
      exact h k2 n hn

theorem bufferStep_accurate (st : Store) (b : ChangeBuffer) (op : BufferOp)
    (h : SizesAccurate st b) : SizesAccurate st (bufferStep st b op) := by
  cases op with
  | read k => exact bufferRead_accurate st b k h
  | readAll ks =>
    show SizesAccurate st (ks.foldl (bufferRead st) b)
    induction ks generalizing b with
    | nil => exact h
    | cons hd tl ih => exact ih _ (bufferRead_accurate st b hd h)
  | addEntry d => exact h
  | removeEntry k rt => exact h

theorem foldl_bufferStep_accurate (st : Store) (ops : List BufferOp)
    (b : ChangeBuffer) (h : SizesAccurate st b) :
    SizesAccurate st (ops.foldl (bufferStep st) b) := by
  induction ops generalizing b with
  | nil => exact h
  | cons hd tl ih => exact ih _ (bufferStep_accurate st b hd h)

theorem bufferRead_changes (st : Store) (b : ChangeBuffer) (k : DocumentKey) :
    (bufferRead st b k).changes = b.changes := by
  unfold bufferRead recordReadSize
  split
  · rfl
  · rfl

theorem bufferRead_trackRemovals (st : Store) (b : ChangeBuffer)
    (k : DocumentKey) : (bufferRead st b k).trackRemovals = b.trackRemovals := by
  unfold bufferRead recordReadSize
  split
  · rfl
  · rfl

theorem bufferStep_changes_nodup (st : Store) (b : ChangeBuffer) (op : BufferOp)
    (h : (b.changes.map Prod.fst).Nodup) :
    ((bufferStep st b op).changes.map Prod.fst).Nodup := by
  cases op with
  | read k =>
    rw [show (bufferStep st b (.read k)).changes = b.changes from
      bufferRead_changes st b k]
    exact h
  | readAll ks =>
    show (((ks.foldl (bufferRead st) b).changes).map Prod.fst).Nodup
    induction ks generalizing b with
    | nil => exact h
    | cons hd tl ih =>
      simp only [List.foldl_cons]
      exact ih _ (by rw [bufferRead_changes]; exact h)
  | addEntry d => exact assocSet_keys_nodup _ _ _ h
  | removeEntry k rt => exact assocSet_keys_nodup _ _ _ h

theorem foldl_bufferStep_changes_nodup (st : Store) (ops : List BufferOp)
    (b : ChangeBuffer) (h : (b.changes.map Prod.fst).Nodup) :
    (((ops.foldl (bufferStep st) b).changes).map Prod.fst).Nodup := by
  induction ops generalizing b with
  | nil => exact h
  | cons hd tl ih => exact ih _ (bufferStep_changes_nodup st b hd h)

theorem bufferStep_trackRemovals (st : Store) (b : ChangeBuffer)
    (op : BufferOp) : (bufferStep st b op).trackRemovals = b.trackRemovals := by
  cases op with
  | read k => exact bufferRead_trackRemovals st b k
  | readAll ks =>
    show ((ks.foldl (bufferRead st) b).trackRemovals) = b.trackRemovals
    induction ks generalizing b with
    | nil => rfl
    | cons hd tl ih =>
      simp only [List.foldl_cons]
      rw [ih _, bufferRead_trackRemovals]
  | addEntry d => rfl
  | removeEntry k rt => rfl

theorem foldl_bufferStep_trackRemovals (st : Store) (ops : List BufferOp)
    (b : ChangeBuffer) :
    ((ops.foldl (bufferStep st) b).trackRemovals) = b.trackRemovals := by
  induction ops generalizing b with
  | nil => rfl
  | cons hd tl ih =>
    simp only [List.foldl_cons]
    rw [ih _, bufferStep_trackRemovals]

/-- Without tracked removals, one `applyChanges` loop pass preserves the
difference between the store's total size and the accumulated delta. -/
theorem applyChangesLoop_size_noTrack (sizes : List (DocumentKey × Nat))
    (L : List (DocumentKey × MutableDocument)) (st : Store) (delta : Int)
    (ps : List ResourcePath) (res : Store × Int × List ResourcePath)
    (hok : applyChangesLoop false sizes L (st, delta, ps) = .ok res)
    (hnd : (L.map Prod.fst).Nodup)
    (hacc : ∀ kv ∈ L, ∀ n, assocGet sizes kv.1 = some n →
      n = dbDocumentSizeOpt (storeGet st kv.1)) :
    storeSizeSum res.1 - res.2.1 = storeSizeSum st - delta := by
  induction L generalizing st delta ps with
  | nil =>
    simp only [applyChangesLoop] at hok
    cases hok
    rfl
  | cons hd tl ih =>
    simp only [List.map_cons, List.nodup_cons] at hnd
    have hne : ∀ kv ∈ tl, kv.1 ≠ hd.1 :=
      fun kv hkv he => hnd.1 (he ▸ List.mem_map_of_mem Prod.fst hkv)
    have haccTl : ∀ (st2 : Store),
        (∀ kv ∈ tl, storeGet st2 kv.1 = storeGet st kv.1) →
        ∀ kv ∈ tl, ∀ n, assocGet sizes kv.1 = some n →
          n = dbDocumentSizeOpt (storeGet st2 kv.1) := by
      intro st2 hst2 kv hkv n hn
      rw [hst2 kv hkv]
      exact hacc kv (List.mem_cons_of_mem _ hkv) n hn
    simp only [applyChangesLoop] at hok
    split at hok
    · simp at hok
    · rename_i prev heq
      have hprev := hacc hd (List.mem_cons_self _ _) prev heq
      split at hok
      · split at hok
        · simp at hok
        · have hih := ih _ _ _ hok hnd.2
            (haccTl _ (fun kv hkv => storeGet_put_ne _ _ _ _ (hne kv hkv)))
          rw [hih, storeSizeSum_put, hprev]
          ring
      · split at hok
        · rename_i htr
          simp at htr
        · have hih := ih _ _ _ hok hnd.2
            (haccTl _ (fun kv hkv => storeGet_delete_ne _ _ _ (hne kv hkv)))
          rw [hih, storeSizeSum_delete, hprev]
          ring

/-- C1 (amended): for every sequence of add/remove operations committed
through change buffers with track-removals disabled, the byte-size counter
after each commit equals the sum of the encoded sizes of the entries in
the cache, and removing all documents returns the counter to exactly 0. -/
theorem C1_size_invariant_noTrack (c : CacheState) (h : ReachableNoTrack c) :
    c.byteSize = storeSizeSum c.store ∧
      (c.store = [] → c.byteSize = 0) := by
  have main : ∀ c2 : CacheState, ReachableNoTrack c2 →
      c2.byteSize = storeSizeSum c2.store := by
    intro c2 h2
    induction h2 with
    | init => rfl
    | step hreach hrun ih =>
      rename_i c0 c3 ops ps
      unfold runSession at hrun
      unfold applyChanges at hrun
      split at hrun
      · simp at hrun
      · rename_i store sizeDelta parents heq
        cases hrun
        have htr := foldl_bufferStep_trackRemovals c0.store ops
          (newChangeBuffer false)
        rw [htr] at heq
        have hacc := foldl_bufferStep_accurate c0.store ops
          (newChangeBuffer false) (fun k n hn => by simp [newChangeBuffer, assocGet] at hn)
        have hnd := foldl_bufferStep_changes_nodup c0.store ops
          (newChangeBuffer false) (by simp [newChangeBuffer])
        have hsz := applyChangesLoop_size_noTrack _ _ _ _ _ _ heq hnd
          (fun kv _ n hn => hacc kv.1 n hn)
        simp only at hsz ⊢
        omega
  refine ⟨main c h, fun hs => ?_⟩
  rw [main c h, hs]
  rfl

/-! ## Prefix and separation lemmas for ordered scans -/

theorem lexCompare_prefix_le {α : Type} {cmp : α → α → Ordering}
    (h : CmpLaws cmp) (as bs : List α) (hp : as <+: bs) :
    lexCompare cmp as bs ≠ .gt := by
  induction as generalizing bs with
  | nil =>
    cases bs with
    | nil => simp [lexCompare]
    | cons b bs2 => simp [lexCompare]
  | cons a as2 ih =>
    obtain ⟨t, rfl⟩ := hp
    rw [List.cons_append, lexCompare_cons, (h.eq_iff a a).2 rfl]
    exact ih _ ⟨t, rfl⟩

theorem lexCompare_prefix_separation {α : Type} {cmp : α → α → Ordering}
    (h : CmpLaws cmp) (c p q : List α) (hp : c <+: p) (hq : ¬ c <+: q)
    (hle : lexCompare cmp c q ≠ .gt) : lexCompare cmp p q = .lt := by
  induction c generalizing p q with
  | nil => exact absurd List.nil_prefix hq
  | cons x c2 ih =>
    obtain ⟨t, rfl⟩ := hp
    cases q with
    | nil => simp [lexCompare] at hle
    | cons y q2 =>
      rw [List.cons_append, lexCompare_cons]
      rw [lexCompare_cons] at hle
      rcases hxy : cmp x y with _ | _ | _ <;> rw [hxy] at hle
      · have hq2 : ¬ c2 <+: q2 := by
          intro hpre
          apply hq
          rw [(h.eq_iff x y).1 hxy]
          obtain ⟨t2, rfl⟩ := hpre
          exact ⟨t2, rfl⟩
        exact ih _ _ ⟨t, rfl⟩ hq2 hle
      · exact (hle rfl).elim

/-- In a sorted list where every `P` element sorts strictly below every
non-`P` element, the `P` elements form a prefix of the list. -/
theorem sorted_split {α : Type} (le : α → α → Bool) (P : α → Prop)
    (L : List α) (hs : L.Pairwise (fun a b => le a b = true))
    (hsep : ∀ a b, a ∈ L → b ∈ L → P a → ¬ P b → le b a = false) :
    ∃ A B, L = A ++ B ∧ (∀ a ∈ A, P a) ∧ (∀ b ∈ B, ¬ P b) := by
  induction L with
  | nil => exact ⟨[], [], rfl, by simp, by simp⟩
  | cons x xs ih =>
    rw [List.pairwise_cons] at hs
    by_cases hx : P x
    · obtain ⟨A, B, heq, hA, hB⟩ := ih hs.2
        (fun a b ha hb => hsep a b (List.mem_cons_of_mem _ ha)
          (List.mem_cons_of_mem _ hb))
      refine ⟨x :: A, B, by rw [heq, List.cons_append], ?_, hB⟩
      intro a ha
      rcases List.mem_cons.1 ha with rfl | ha2
      · exact hx
      · exact hA a ha2
    · refine ⟨[], x :: xs, rfl, by simp, ?_⟩
      intro b hb hPb
      rcases List.mem_cons.1 hb with rfl | hb2
      · exact hx hPb
      · have h1 := hs.1 b hb2
        have h2 := hsep b x (List.mem_cons_of_mem _ hb2)
          (List.mem_cons_self _ _) hPb hx
        rw [h1] at h2
        simp at h2

/-! ## `getAllLoop` characterizations -/

theorem getAllLoop_no_prefix (c : ResourcePath) (n : Nat)
    (L : List StoreEntry) (m : DocMap)
    (h : ∀ e ∈ L, ¬ (c.isPrefixOf (maybeDecodeDocument e.1 (some e.2)).key
      = true)) :
    getAllLoop c n L m = m := by
  induction L with
  | nil => rfl
  | cons hd tl ih =>
    simp only [getAllLoop]
    by_cases hlen : hd.1.length ≠ n
    · rw [if_pos hlen]
      exact ih (fun e he => h e (List.mem_cons_of_mem _ he))
    · rw [if_neg hlen, if_neg (h hd (List.mem_cons_self _ _))]

theorem getAllLoop_append (c : ResourcePath) (n : Nat)
    (A B : List StoreEntry) (m : DocMap)
    (hA : ∀ e ∈ A, c.isPrefixOf (maybeDecodeDocument e.1 (some e.2)).key
      = true) :
    getAllLoop c n (A ++ B) m = getAllLoop c n B (getAllLoop c n A m) := by
  induction A generalizing m with
  | nil => rfl
  | cons hd tl ih =>
    simp only [List.cons_append, getAllLoop]
    by_cases hlen : hd.1.length ≠ n
    · rw [if_pos hlen, if_pos hlen]
      exact ih _ (fun e he => hA e (List.mem_cons_of_mem _ he))
    · rw [if_neg hlen, if_neg hlen,
        if_pos (hA hd (List.mem_cons_self _ _)),
        if_pos (hA hd (List.mem_cons_self _ _))]
      exact ih _ (fun e he => hA e (List.mem_cons_of_mem _ he))

theorem getAllLoop_all_prefix (c : ResourcePath) (n : Nat)
    (A : List StoreEntry) (m : DocMap)
    (hA : ∀ e ∈ A, c.isPrefixOf (maybeDecodeDocument e.1 (some e.2)).key
      = true)
    (hkeys : ∀ e ∈ A, (maybeDecodeDocument e.1 (some e.2)).key = e.1) :
    getAllLoop c n A m =
      ((A.filter (fun e => decide (e.1.length = n))).map
        (fun e => (e.1, maybeDecodeDocument e.1 (some e.2)))).foldl
        (fun acc kv => mapInsert acc kv.1 kv.2) m := by
  induction A generalizing m with
  | nil => rfl
  | cons hd tl ih =>
    simp only [getAllLoop, List.filter_cons]
    by_cases hlen : hd.1.length ≠ n
    · rw [if_pos hlen, if_neg (by simpa using hlen)]
      exact ih _ (fun e he => hA e (List.mem_cons_of_mem _ he))
        (fun e he => hkeys e (List.mem_cons_of_mem _ he))
    · rw [if_neg hlen, if_pos (hA hd (List.mem_cons_self _ _)),
        if_pos (by simpa using hlen)]
      simp only [List.map_cons, List.foldl_cons]
      rw [hkeys hd (List.mem_cons_self _ _)]
      exact ih _ (fun e he => hA e (List.mem_cons_of_mem _ he))
        (fun e he => hkeys e (List.mem_cons_of_mem _ he))

/-! ## Sortedness of the `getAll` scans -/

theorem WCmp.comap {α β : Type} {cmp : β → β → Ordering} (h : WCmp cmp)
    (f : α → β) : WCmp (fun x y => cmp (f x) (f y)) :=
  ⟨fun a b => h.swap (f a) (f b),
   fun a b c => h.lt_trans (f a) (f b) (f c),
   fun a b c => h.eq_left (f a) (f b) (f c)⟩

theorem primaryLe_trans (a b c : StoreEntry)
    (hab : primaryLe a b = true) (hbc : primaryLe b c = true) :
    primaryLe a c = true :=
  (primaryLe_iff a c).2 ((pathCompare_laws.toWCmp.comap
      (fun e : StoreEntry => e.1)).le_trans
    ((primaryLe_iff a b).1 hab) ((primaryLe_iff b c).1 hbc))

theorem primaryLe_total (a b : StoreEntry) :
    (primaryLe a b || primaryLe b a) = true := by
  rcases (pathCompare_laws.toWCmp.comap
      (fun e : StoreEntry => e.1)).le_total a b with h | h
  · rw [(primaryLe_iff a b).2 h]
    simp
  · rw [(primaryLe_iff b a).2 h]
    simp

theorem entriesByKey_sorted (s : Store) :
    (entriesByKey s).Pairwise (fun a b => primaryLe a b = true) :=
  sortEntries_pairwise primaryLe primaryLe_trans primaryLe_total s

/-- The `(collection, readTime)` index key comparator as a `WCmp`. -/
theorem idxKeyCompare_wcmp : WCmp idxKeyCompare := by
  have h := pairWCmp
    (pathCompare_laws.toWCmp.comap
      (fun a : ResourcePath × DbTimestampKey => a.1))
    (natCompare_laws.toWCmp.comap
      (fun a : ResourcePath × DbTimestampKey => a.2))
  exact h

/-- The entry comparator of the `collectionReadTime` index. -/
def collectionIdxCmp (x y : StoreEntry) : Ordering :=
  match idxKeyCompare (collectionReadTimeKey x) (collectionReadTimeKey y) with
  | .eq => pathCompare x.1 y.1
  | o => o

theorem collectionIdxCmp_wcmp : WCmp collectionIdxCmp :=
  pairWCmp (idxKeyCompare_wcmp.comap collectionReadTimeKey)
    (pathCompare_laws.toWCmp.comap (fun e : StoreEntry => e.1))

theorem collectionIdxLe_iff (x y : StoreEntry) :
    collectionIdxLe x y = true ↔ collectionIdxCmp x y ≠ .gt := by
  unfold collectionIdxLe collectionIdxCmp
  rcases h : idxKeyCompare (collectionReadTimeKey x) (collectionReadTimeKey y)
    with _ | _ | _
  · simp
  · simp [primaryLe]
  · simp

theorem collectionIdxLe_trans (a b c : StoreEntry)
    (hab : collectionIdxLe a b = true) (hbc : collectionIdxLe b c = true) :
    collectionIdxLe a c = true :=
  (collectionIdxLe_iff a c).2 (collectionIdxCmp_wcmp.le_trans
    ((collectionIdxLe_iff a b).1 hab) ((collectionIdxLe_iff b c).1 hbc))

theorem collectionIdxLe_total (a b : StoreEntry) :
    (collectionIdxLe a b || collectionIdxLe b a) = true := by
  rcases collectionIdxCmp_wcmp.le_total a b with h | h
  · rw [(collectionIdxLe_iff a b).2 h]
    simp
  · rw [(collectionIdxLe_iff b a).2 h]
    simp

theorem entriesByCollectionReadTime_sorted (s : Store) :
    (entriesByCollectionReadTime s).Pairwise
      (fun a b => collectionIdxLe a b = true) :=
  sortEntries_pairwise collectionIdxLe collectionIdxLe_trans
    collectionIdxLe_total s

/-! ## Membership in the `getAll` ranges -/

theorem getAllRange_min_mem (s : Store) (collection : ResourcePath)
    (e : StoreEntry) :
    e ∈ getAllRange s collection 0 ↔
      e ∈ s ∧ pathCompare collection e.1 ≠ .gt := by
  unfold getAllRange entriesByKey
  rw [if_pos rfl, List.mem_filter, mem_sortEntries]
  simp

theorem getAllRange_idx_mem (s : Store) (collection : ResourcePath)
    (t : SnapshotVersion) (ht : t ≠ 0) (e : StoreEntry) :
    e ∈ getAllRange s collection t ↔
      e ∈ s ∧ idxKeyCompare (collection, toDbTimestampKey t)
        (collectionReadTimeKey e) = .lt := by
  unfold getAllRange entriesByCollectionReadTime
  rw [if_neg ht, List.mem_filter, mem_sortEntries]
  simp

theorem getAllRange_keys_nodup (s : Store) (collection : ResourcePath)
    (t : SnapshotVersion) (h : (s.map Prod.fst).Nodup) :
    ((getAllRange s collection t).map Prod.fst).Nodup := by
  unfold getAllRange
  split
  · have hperm : (entriesByKey s).Perm s := sortEntries_perm _ s
    exact ((List.filter_sublist _).map Prod.fst).nodup
      (((hperm.map Prod.fst).nodup_iff).2 h)
  · have hperm : (entriesByCollectionReadTime s).Perm s :=
      sortEntries_perm _ s
    exact ((List.filter_sublist _).map Prod.fst).nodup
      (((hperm.map Prod.fst).nodup_iff).2 h)

theorem getAllRange_min_sorted (s : Store) (collection : ResourcePath) :
    (getAllRange s collection 0).Pairwise (fun a b => primaryLe a b = true) := by
  unfold getAllRange
  rw [if_pos rfl]
  exact (entriesByKey_sorted s).filter _

theorem getAllRange_idx_sorted (s : Store) (collection : ResourcePath)
    (t : SnapshotVersion) (ht : t ≠ 0) :
    (getAllRange s collection t).Pairwise
      (fun a b => collectionIdxLe a b = true) := by
  unfold getAllRange
  rw [if_neg ht]
  exact (entriesByCollectionReadTime_sorted s).filter _

/-- The parent path of an immediate child of a collection. -/
theorem dropLast_of_child (c : ResourcePath) (k : DocumentKey)
    (hlen : k.length = c.length + 1) (hpre : c <+: k) : k.dropLast = c := by
  obtain ⟨t, rfl⟩ := hpre
  have ht : t.length = 1 := by
    rw [List.length_append] at hlen
    omega
  obtain ⟨x, rfl⟩ : ∃ x, t = [x] := by
    cases t with
    | nil => simp at ht
    | cons a t2 =>
      cases t2 with
      | nil => exact ⟨a, rfl⟩
      | cons b t3 => simp at ht
  exact List.dropLast_concat

/-- C4 (amended): with the minimum `sinceReadTime`, `getAll` returns
exactly the cached entries whose keys are immediate children of the
collection path (key length = collection length + 1), each decoded by
`maybeDecodeDocument` — so valid documents are returned as stored and
sentinel tombstones surface as explicitly invalid documents; entries in
subcollections or outside the collection prefix are never included. -/
theorem C4_getAll_immediate_children (s : Store) (collection : ResourcePath)
    (hwf : StoreWF s) (k : DocumentKey) (d : MutableDocument) :
    mapGet (getAll s collection 0) k = some d ↔
      ∃ e, (k, e) ∈ s ∧ k.length = collection.length + 1 ∧
        collection.isPrefixOf k = true ∧
        d = maybeDecodeDocument k (some e) := by
  have hrangeWF : ∀ e ∈ getAllRange s collection 0, e ∈ s :=
    fun e he => ((getAllRange_min_mem s collection e).1 he).1
  have hkeys : ∀ e ∈ getAllRange s collection 0,
      (maybeDecodeDocument e.1 (some e.2)).key = e.1 :=
    fun e he => maybeDecodeDocument_key _ _ (hwf.path_eq e (hrangeWF e he))
  obtain ⟨A, B, hAB, hA, hB⟩ := sorted_split primaryLe
    (fun e => collection.isPrefixOf
      (maybeDecodeDocument e.1 (some e.2)).key = true)
    (getAllRange s collection 0) (getAllRange_min_sorted s collection)
    (by
      intro a b ha hb hPa hPb
      simp only at hPa hPb
      rw [hkeys a ha] at hPa
      rw [hkeys b hb] at hPb
      have hblt := ((getAllRange_min_mem s collection b).1 hb).2
      have hlt := lexCompare_prefix_separation segCompare_laws collection a.1
        b.1 (List.isPrefixOf_iff_prefix.1 hPa)
        (fun hh => hPb (List.isPrefixOf_iff_prefix.2 hh)) hblt
      have hlt2 : pathCompare a.1 b.1 = .lt := hlt
      have hswap := pathCompare_laws.swap a.1 b.1
      rw [hlt2] at hswap
      simp only [primaryLe, ← hswap]
      rfl)
  have hkeysA : ∀ e ∈ A, (maybeDecodeDocument e.1 (some e.2)).key = e.1 :=
    fun e he => hkeys e (by
      rw [hAB]
      exact List.mem_append_left _ he)
  have hgetAll : getAll s collection 0 =
      ((A.filter (fun e => decide (e.1.length = collection.length + 1))).map
        (fun e => (e.1, maybeDecodeDocument e.1 (some e.2)))).foldl
        (fun acc kv => mapInsert acc kv.1 kv.2) mapEmpty := by
    unfold getAll
    rw [hAB, getAllLoop_append _ _ _ _ _ hA,
      getAllLoop_no_prefix _ _ _ _ hB,
      getAllLoop_all_prefix _ _ _ _ hA hkeysA]
  have hndmapped :
      (((A.filter (fun e => decide (e.1.length = collection.length + 1))).map
        (fun e => (e.1, maybeDecodeDocument e.1 (some e.2)))).map
          Prod.fst).Nodup := by
    rw [List.map_map]
    have hrangeNodup := getAllRange_keys_nodup s collection 0 hwf.nodup
    rw [hAB] at hrangeNodup
    have hANodup : (A.map Prod.fst).Nodup :=
      ((List.sublist_append_left A B).map Prod.fst).nodup hrangeNodup
    exact ((List.filter_sublist A).map _).nodup hANodup
  rw [hgetAll]
  constructor
  · intro h
    rcases mapGet_foldl_inv _ _ _ _ h with hmem | hmem
    · rcases List.mem_map.1 hmem with ⟨e2, he2, heq⟩
      rw [Prod.mk.injEq] at heq
      obtain ⟨heqk, heqd⟩ := heq
      rw [List.mem_filter] at he2
      obtain ⟨he2A, he2len⟩ := he2
      have he2range : e2 ∈ getAllRange s collection 0 := by
        rw [hAB]
        exact List.mem_append_left _ he2A
      have hPe2 := hA e2 he2A
      rw [hkeys e2 he2range] at hPe2
      subst heqk
      exact ⟨e2.2, hrangeWF e2 he2range, by simpa using he2len, hPe2,
        heqd.symm⟩
    · simp [mapEmpty, mapGet] at hmem
  · rintro ⟨e, hes, hlen, hpre, rfl⟩
    have hrange : (k, e) ∈ getAllRange s collection 0 :=
      (getAllRange_min_mem _ _ _).2 ⟨hes,
        lexCompare_prefix_le segCompare_laws _ _
          (List.isPrefixOf_iff_prefix.1 hpre)⟩
    have hkey : (maybeDecodeDocument k (some e)).key = k :=
      maybeDecodeDocument_key _ _ (hwf.path_eq (k, e) hes)
    have hP : collection.isPrefixOf
        (maybeDecodeDocument (k, e).1 (some (k, e).2)).key = true := by
      rw [show (maybeDecodeDocument (k, e).1 (some (k, e).2)).key = k
        from hkey]
      exact hpre
    have hmemA : (k, e) ∈ A := by
      rw [hAB] at hrange
      rcases List.mem_append.1 hrange with h2 | h2
      · exact h2
      · exact absurd hP (hB _ h2)
    apply mapGet_foldl_mem
    · exact List.mem_map.2 ⟨(k, e),
        List.mem_filter.2 ⟨hmemA, by simpa using hlen⟩, rfl⟩
    · exact hndmapped

theorem natCompare_lt_iff (a b : Nat) : natCompare a b = .lt ↔ a < b := by
  unfold natCompare
  by_cases h : a < b
  · simp [h]
  · by_cases h2 : b < a
    · simp [h, h2]
    · simp [h, h2]

/-- C5 (amended): for a non-minimum `sinceReadTime`, `getAll` scans the
`(collection, readTime)` index and returns exactly the cached entries of
the collection (immediate children) whose STORED READ TIME strictly
exceeds the bound — documents read at exactly the bound are excluded, and
selection is by the stored read time, not the document's server version —
each decoded as in normal reads. -/
theorem C5_getAll_since_read_time (s : Store) (collection : ResourcePath)
    (t : SnapshotVersion) (ht : t ≠ 0) (hwf : StoreWF s) (k : DocumentKey)
    (d : MutableDocument) :
    mapGet (getAll s collection t) k = some d ↔
      ∃ e, (k, e) ∈ s ∧ k.length = collection.length + 1 ∧
        collection.isPrefixOf k = true ∧ t < e.readTime ∧
        d = maybeDecodeDocument k (some e) := by
  have hrangeWF : ∀ e ∈ getAllRange s collection t, e ∈ s :=
    fun e he => ((getAllRange_idx_mem s collection t ht e).1 he).1
  have hkeys : ∀ e ∈ getAllRange s collection t,
      (maybeDecodeDocument e.1 (some e.2)).key = e.1 :=
    fun e he => maybeDecodeDocument_key _ _ (hwf.path_eq e (hrangeWF e he))
  have hppLt : ∀ b ∈ getAllRange s collection t,
      ¬ collection.isPrefixOf b.1 = true →
      pathCompare collection b.1.dropLast = .lt := by
    intro b hb hPb
    have hbs := hrangeWF b hb
    have hbidx := ((getAllRange_idx_mem s collection t ht b).1 hb).2
    have hpp := hwf.parent_eq b hbs
    unfold idxKeyCompare at hbidx
    rw [show (collectionReadTimeKey b).1 = b.1.dropLast from by
      rw [collectionReadTimeKey, hpp]] at hbidx
    rcases hc : pathCompare collection b.1.dropLast with _ | _ | _
    · rfl
    · exfalso
      apply hPb
      rw [List.isPrefixOf_iff_prefix,
        (pathCompare_laws.eq_iff collection b.1.dropLast).1 hc]
      exact (List.dropLast_prefix b.1).trans (List.prefix_refl _)
    · rw [hc] at hbidx
      simp at hbidx
  have hsep : ∀ a b, a ∈ getAllRange s collection t →
      b ∈ getAllRange s collection t →
      (fun e => collection.isPrefixOf
        (maybeDecodeDocument e.1 (some e.2)).key = true) a →
      ¬ (fun e => collection.isPrefixOf
        (maybeDecodeDocument e.1 (some e.2)).key = true) b →
      collectionIdxLe b a = false := by
    intro a b ha hb hPa hPb
    simp only at hPa hPb
    rw [hkeys a ha] at hPa
    rw [hkeys b hb] at hPb
    have has := hrangeWF a ha
    have hbs := hrangeWF b hb
    have hclt := hppLt b hb hPb
    have hclaim1 : ¬ collection <+: b.1.dropLast := by
      intro hh
      apply hPb
      rw [List.isPrefixOf_iff_prefix]
      exact hh.trans (List.dropLast_prefix b.1)
    have hlt3 : pathCompare a.1.dropLast b.1.dropLast = .lt := by
      obtain ⟨ta, hta⟩ := List.isPrefixOf_iff_prefix.1 hPa
      cases ta with
      | nil =>
        rw [List.append_nil] at hta
        have hple : pathCompare a.1.dropLast collection ≠ .gt := by
          rw [← hta]
          exact lexCompare_prefix_le segCompare_laws _ _
            (List.dropLast_prefix collection)
        rcases hc2 : pathCompare a.1.dropLast collection with _ | _ | _
        · exact pathCompare_laws.lt_trans _ _ _ hc2 hclt
        · rw [(pathCompare_laws.eq_iff _ _).1 hc2]
          exact hclt
        · exact absurd hc2 hple
      | cons x ta2 =>
        have hpre2 : collection <+: a.1.dropLast := by
          rw [← hta, List.dropLast_append_of_ne_nil collection (by simp)]
          exact ⟨(x :: ta2).dropLast, rfl⟩
        exact lexCompare_prefix_separation segCompare_laws _ _ _ hpre2
          hclaim1 (show pathCompare collection b.1.dropLast ≠ .gt by
            rw [hclt]
            simp)
    have hgt : collectionIdxCmp b a = .gt := by
      have hlt4 : collectionIdxCmp a b = .lt := by
        unfold collectionIdxCmp idxKeyCompare
        rw [show (collectionReadTimeKey a).1 = a.1.dropLast from by
            rw [collectionReadTimeKey, hwf.parent_eq a has],
          show (collectionReadTimeKey b).1 = b.1.dropLast from by
            rw [collectionReadTimeKey, hwf.parent_eq b hbs],
          hlt3]
      have hswap := collectionIdxCmp_wcmp.swap a b
      rw [hlt4] at hswap
      exact hswap.symm
    cases hle : collectionIdxLe b a with
    | false => rfl
    | true =>
      exact absurd ((collectionIdxLe_iff b a).1 hle) (by rw [hgt]; simp)
  obtain ⟨A, B, hAB, hA, hB⟩ := sorted_split collectionIdxLe
    (fun e => collection.isPrefixOf
      (maybeDecodeDocument e.1 (some e.2)).key = true)
    (getAllRange s collection t) (getAllRange_idx_sorted s collection t ht)
    hsep
  have hkeysA : ∀ e ∈ A, (maybeDecodeDocument e.1 (some e.2)).key = e.1 :=
    fun e he => hkeys e (by
      rw [hAB]
      exact List.mem_append_left _ he)
  have hgetAll : getAll s collection t =
      ((A.filter (fun e => decide (e.1.length = collection.length + 1))).map
        (fun e => (e.1, maybeDecodeDocument e.1 (some e.2)))).foldl
        (fun acc kv => mapInsert acc kv.1 kv.2) mapEmpty := by
    unfold getAll
    rw [hAB, getAllLoop_append _ _ _ _ _ hA,
      getAllLoop_no_prefix _ _ _ _ hB,
      getAllLoop_all_prefix _ _ _ _ hA hkeysA]
  have hndmapped :
      (((A.filter (fun e => decide (e.1.length = collection.length + 1))).map
        (fun e => (e.1, maybeDecodeDocument e.1 (some e.2)))).map
          Prod.fst).Nodup := by
    rw [List.map_map]
    have hrangeNodup := getAllRange_keys_nodup s collection t hwf.nodup
    rw [hAB] at hrangeNodup
    have hANodup : (A.map Prod.fst).Nodup :=
      ((List.sublist_append_left A B).map Prod.fst).nodup hrangeNodup
    exact ((List.filter_sublist A).map _).nodup hANodup
  rw [hgetAll]
  constructor
  · intro h
    rcases mapGet_foldl_inv _ _ _ _ h with hmem | hmem
    · rcases List.mem_map.1 hmem with ⟨e2, he2, heq⟩
      rw [Prod.mk.injEq] at heq
      obtain ⟨heqk, heqd⟩ := heq
      rw [List.mem_filter] at he2
      obtain ⟨he2A, he2len⟩ := he2
      have he2range : e2 ∈ getAllRange s collection t := by
        rw [hAB]
        exact List.mem_append_left _ he2A
      have he2s := hrangeWF e2 he2range
      have hPe2 := hA e2 he2A
      rw [hkeys e2 he2range] at hPe2
      have he2len2 : e2.1.length = collection.length + 1 := by
        simpa using he2len
      have hdrop : e2.1.dropLast = collection :=
        dropLast_of_child collection e2.1 he2len2
          (List.isPrefixOf_iff_prefix.1 hPe2)
      have hidx := ((getAllRange_idx_mem s collection t ht e2).1 he2range).2
      have hrt : t < e2.2.readTime := by
        unfold idxKeyCompare at hidx
        rw [show (collectionReadTimeKey e2).1 = e2.1.dropLast from by
            rw [collectionReadTimeKey, hwf.parent_eq e2 he2s],
          hdrop, (pathCompare_laws.eq_iff collection collection).2 rfl]
          at hidx
        exact (natCompare_lt_iff _ _).1 hidx
      subst heqk
      exact ⟨e2.2, he2s, he2len2, hPe2, hrt, heqd.symm⟩
    · simp [mapEmpty, mapGet] at hmem
  · rintro ⟨e, hes, hlen, hpre, hrt, rfl⟩
    have hdrop : k.dropLast = collection :=
      dropLast_of_child collection k hlen (List.isPrefixOf_iff_prefix.1 hpre)
    have hrange : (k, e) ∈ getAllRange s collection t := by
      refine (getAllRange_idx_mem s collection t ht _).2 ⟨hes, ?_⟩
      unfold idxKeyCompare
      rw [show (collectionReadTimeKey (k, e)).1 = k.dropLast from by
          rw [collectionReadTimeKey, hwf.parent_eq (k, e) hes],
        hdrop, (pathCompare_laws.eq_iff collection collection).2 rfl]
      exact (natCompare_lt_iff _ _).2 hrt
    have hkey : (maybeDecodeDocument k (some e)).key = k :=
      maybeDecodeDocument_key _ _ (hwf.path_eq (k, e) hes)
    have hP : collection.isPrefixOf
        (maybeDecodeDocument (k, e).1 (some (k, e).2)).key = true := by
      rw [show (maybeDecodeDocument (k, e).1 (some (k, e).2)).key = k
        from hkey]
      exact hpre
    have hmemA : (k, e) ∈ A := by
      rw [hAB] at hrange
      rcases List.mem_append.1 hrange with h2 | h2
      · exact h2
      · exact absurd hP (hB _ h2)
    apply mapGet_foldl_mem
    · exact List.mem_map.2 ⟨(k, e),
        List.mem_filter.2 ⟨hmemA, by simpa using hlen⟩, rfl⟩
    · exact hndmapped

/-! ## Concrete fixtures for witnesses and counterexamples -/

/-- A found document at `a/1`. -/
def docA : MutableDocument :=
  { key := ["a", "1"], documentType := .foundDocument, version := 1,
    readTime := 1, data := 5, documentState := .synced }

/-- A found document at `a/2`. -/
def docA2 : MutableDocument :=
  { key := ["a", "2"], documentType := .foundDocument, version := 1,
    readTime := 1, data := 4, documentState := .synced }

/-- A found document at `b/1`. -/
def docB : MutableDocument :=
  { key := ["b", "1"], documentType := .foundDocument, version := 2,
    readTime := 2, data := 7, documentState := .synced }

/-- The sentinel tombstone a tracked removal of `b/x` at read time 5
writes. -/
def sentinelDocBX : MutableDocument :=
  ((MutableDocument.newInvalidDocument ["b", "x"]).setReadTime 5).convertToNoDocument 0

/-- A store holding `a/1` and `b/1`. -/
def exStore : Store :=
  [(["a", "1"], toDbRemoteDocument docA),
   (["b", "1"], toDbRemoteDocument docB)]

/-- A store holding only a sentinel tombstone at `b/x`. -/
def exSentStore : Store := [(["b", "x"], toDbRemoteDocument sentinelDocBX)]

/-- Documents of collection `b` read at times 11, 12 and 13, as in the
repository's `can get all documents since read time` test. -/
def docOld : MutableDocument :=
  { key := ["b", "old"], documentType := .foundDocument, version := 1,
    readTime := 11, data := 1, documentState := .synced }

/-- The collection-`b` document read exactly at the bound. -/
def docCur : MutableDocument :=
  { key := ["b", "current"], documentType := .foundDocument, version := 2,
    readTime := 12, data := 1, documentState := .synced }

/-- The collection-`b` document read after the bound. -/
def docNew : MutableDocument :=
  { key := ["b", "new"], documentType := .foundDocument, version := 3,
    readTime := 13, data := 1, documentState := .synced }

/-- The read-time 11/12/13 store. -/
def exStore12 : Store :=
  [(["b", "old"], toDbRemoteDocument docOld),
   (["b", "current"], toDbRemoteDocument docCur),
   (["b", "new"], toDbRemoteDocument docNew)]

/-- A buffer session adding `a/1` after reading it. -/
def exOps1 : List BufferOp := [.read ["a", "1"], .addEntry docA]

/-- A buffer session removing `a/1` after reading it. -/
def exOps2 : List BufferOp := [.read ["a", "1"], .removeEntry ["a", "1"] 3]

/-- The cache state after committing `exOps1` on the initial state. -/
def exState1T : CacheState :=
  { store := [(["a", "1"], toDbRemoteDocument docA)], byteSize := 9 }

/-- The cache state after a tracked removal of `a/1`: the sentinel
tombstone occupies bytes the counter no longer accounts for. -/
def exState2T : CacheState :=
  { store := [(["a", "1"], toDbRemoteDocument
      (((MutableDocument.newInvalidDocument ["a", "1"]).setReadTime 3).convertToNoDocument 0))],
    byteSize := 0 }

/-- A tracked buffer staging the removal of `a/1` whose prior size 9 was
recorded by a read. -/
def exBufferRemove : ChangeBuffer :=
  { changes := [(["a", "1"],
      (MutableDocument.newInvalidDocument ["a", "1"]).setReadTime 3)],
    documentSizes := [(["a", "1"], 9)],
    trackRemovals := true }

/-- A buffer staging two sibling documents of collection `a`. -/
def exBufferAdd2 : ChangeBuffer :=
  { changes := [(["a", "1"], docA), (["a", "2"], docA2)],
    documentSizes := [(["a", "1"], 0), (["a", "2"], 0)],
    trackRemovals := false }

/-- A buffer staging a valid document left at the default minimum read
time. -/
def exBufferZero : ChangeBuffer :=
  { changes := [(["a", "1"], { docA with readTime := 0 })],
    documentSizes := [(["a", "1"], 0)],
    trackRemovals := false }

/-! ## Witnesses and counterexamples -/

/-- C1 counterexample: with track-removals enabled, adding `a/1` and then
removing it leaves the byte-size counter at 0 while the store still holds
a sentinel record of size 3, so the counter does not equal the sum of the
encoded sizes of the entries in the cache. -/
theorem C1_counterexample :
    runSession { store := [], byteSize := 0 } true exOps1 =
      .ok (exState1T, [["a"]]) ∧
    runSession exState1T true exOps2 = .ok (exState2T, []) ∧
    exState2T.byteSize ≠ storeSizeSum exState2T.store :=
  ⟨rfl, rfl, by decide⟩

/-- C1 witness: the invariant evaluated on the state reached by one
untracked session adding `a/1`. -/
theorem C1_witness :
    exState1T.byteSize = storeSizeSum exState1T.store ∧
      (exState1T.store = [] → exState1T.byteSize = 0) :=
  C1_size_invariant_noTrack exState1T
    (@ReachableNoTrack.step { store := [], byteSize := 0 } exState1T exOps1
      [["a"]] ReachableNoTrack.init rfl)

/-- C2 witness: enumerating the example store from the minimum bound
delivers `b/1`. -/
theorem C2_witness :
    mapGet (remoteDocumentCacheGetNewDocumentChanges exStore 0).1 ["b", "1"]
      = some (fromDbRemoteDocument (toDbRemoteDocument docB)) :=
  ((C2_change_enumeration exStore 0 ⟨by decide, by decide, by decide⟩).1
    ["b", "1"] (fromDbRemoteDocument (toDbRemoteDocument docB))).2
    ⟨toDbRemoteDocument docB, by decide, by decide, rfl⟩

/-- C3 witness: reading the sentinel tombstone at `b/x` surfaces the
explicitly invalid document. -/
theorem C3_witness :
    getEntry exSentStore ["b", "x"] =
      MutableDocument.newInvalidDocument ["b", "x"] :=
  (C3_getEntry_never_null exSentStore ["b", "x"]).2.1
    (toDbRemoteDocument sentinelDocBX) (by decide) (by decide)

/-- C4 counterexample: on a store holding only a sentinel tombstone at
`b/x`, `getAll` of collection `b` returns an entry for `b/x`, and that
entry is not a valid document — so `getAll` does not return exactly the
cached valid documents. -/
theorem C4_counterexample :
    mapGet (getAll exSentStore ["b"] 0) ["b", "x"] =
      some (MutableDocument.newInvalidDocument ["b", "x"]) ∧
    (MutableDocument.newInvalidDocument ["b", "x"]).isValidDocument
      = false ∧
    storeGet exSentStore ["b", "x"] = some (toDbRemoteDocument sentinelDocBX) :=
  ⟨by decide, by decide, by decide⟩

/-- C4 witness: the amended characterization evaluated at `b/1` of the
example store. -/
theorem C4_witness :
    mapGet (getAll exStore ["b"] 0) ["b", "1"] =
      some (maybeDecodeDocument ["b", "1"] (some (toDbRemoteDocument docB))) :=
  (C4_getAll_immediate_children exStore ["b"]
    ⟨by decide, by decide, by decide⟩ ["b", "1"]
    (maybeDecodeDocument ["b", "1"] (some (toDbRemoteDocument docB)))).2
    ⟨toDbRemoteDocument docB, by decide, by decide, by decide, rfl⟩

/-- C5 counterexample: `b/current` was read exactly at the bound 12, yet
`getAll` since read time 12 does not return it — the scan is strictly
after the bound, not at-or-after. -/
theorem C5_counterexample :
    storeGet exStore12 ["b", "current"] = some (toDbRemoteDocument docCur) ∧
    (toDbRemoteDocument docCur).readTime = 12 ∧
    mapGet (getAll exStore12 ["b"] 12) ["b", "current"] = none :=
  ⟨by decide, by decide, by decide⟩

/-- C5 witness: the amended characterization evaluated at `b/new` (read
time 13) for the bound 12. -/
theorem C5_witness :
    mapGet (getAll exStore12 ["b"] 12) ["b", "new"] =
      some (maybeDecodeDocument ["b", "new"]
        (some (toDbRemoteDocument docNew))) :=
  (C5_getAll_since_read_time exStore12 ["b"] 12 (by decide)
    ⟨by decide, by decide, by decide⟩ ["b", "new"]
    (maybeDecodeDocument ["b", "new"] (some (toDbRemoteDocument docNew)))).2
    ⟨toDbRemoteDocument docNew, by decide, by decide, by decide, by decide,
      rfl⟩

/-- C6 witness: committing the tracked removal of `a/1` stores the
sentinel tombstone under that key. -/
theorem C6_witness :
    storeGet exState2T.store ["a", "1"] =
      if exBufferRemove.trackRemovals then
        some (toDbRemoteDocument
          (((MutableDocument.newInvalidDocument ["a", "1"]).setReadTime 3).convertToNoDocument 0))
      else none :=
  C6_tracked_removals exBufferRemove exState1T ["a", "1"]
    ((MutableDocument.newInvalidDocument ["a", "1"]).setReadTime 3)
    exState2T [] rfl (by decide) (by decide) (by decide) (by decide)

/-- C8 witness: a buffered read of the unstaged key `a/1` records exactly
its pre-existing size. -/
theorem C8_witness :
    assocGet (bufferRead exStore (newChangeBuffer false) ["a", "1"]).documentSizes
      ["a", "1"] = some (dbDocumentSizeOpt (storeGet exStore ["a", "1"])) :=
  (C8_unread_key_assertion (newChangeBuffer false)
    { store := exStore, byteSize := 0 } exStore ["a", "1"]).2.1 (by decide)

/-- C9 witness: committing two sibling documents of collection `a`
notifies the index manager exactly once, for the parent `a`. -/
theorem C9_witness :
    ([["a"]] : List ResourcePath).Nodup ∧
    (([["a"]] : List ResourcePath).map canonicalString).Nodup ∧
    ∀ q, q ∈ ([["a"]] : List ResourcePath) ↔
      ∃ kv ∈ exBufferAdd2.changes, kv.2.isValidDocument = true ∧
        q = kv.1.dropLast :=
  C9_collection_parent_notifications exBufferAdd2
    { store := [], byteSize := 0 }
    { store := [(["a", "1"], toDbRemoteDocument docA),
        (["a", "2"], toDbRemoteDocument docA2)], byteSize := 17 }
    [["a"]] rfl (by decide)

/-- C10 witness: staging `a/1` with the default minimum read time makes
the commit fail with the read-time-of-zero assertion. -/
theorem C10_witness :
    applyChanges exBufferZero { store := [], byteSize := 0 } =
      .error .zeroReadTime :=
  (C10_zero_read_time_assertion exBufferZero { store := [], byteSize := 0 }
    ["a", "1"] { docA with readTime := 0 } (by decide) (by decide) rfl).2
    (by decide)
